import Mathlib

/-!
Verification development for the ruby-snippets pattern-conversion scripts.

The repository holds two Python pipelines:
* `convert_html_to_md.py` — extracts pattern records from a fixed-schema HTML
  guide and renders them as a Markdown document;
* `scripts/md_to_html.py` — parses such Markdown documents back into pattern
  records, merges several sources, derives categories and search keywords, and
  renders a final HTML page from a placeholder template.

Strings are embedded as `List Char` (Python text), with `String` wrappers where
convenient.  Every definition below is a direct translation of the Python
source; definitions whose doc comment says "Modelled from the spec" follow the
specification's words instead and are clearly marked.
-/

namespace RubySnippets

/-! ### Basic text utilities (Python primitives) -/

/-- Python whitespace characters recognised by `str.strip` (ASCII fragment). -/
def isWsChar (c : Char) : Bool :=
  c = ' ' || c = '\t' || c = '\n' || c = '\r' || c = '\x0b' || c = '\x0c'

/-- Python `str.strip()`. -/
def pstrip (l : List Char) : List Char :=
  ((l.dropWhile isWsChar).reverse.dropWhile isWsChar).reverse

/-- Python `'\n'.join(lines)`. -/
def joinNl : List (List Char) → List Char
  | [] => []
  | [l] => l
  | l :: ls => l ++ '\n' :: joinNl ls

/-- Python `text.split('\n')`. -/
def splitNl : List Char → List (List Char)
  | [] => [[]]
  | c :: cs =>
    if c = '\n' then [] :: splitNl cs
    else
      match splitNl cs with
      | [] => [[c]]
      | p :: ps => (c :: p) :: ps

/-- Python `str.lower()` (ASCII fragment). -/
def lowerCL (l : List Char) : List Char := l.map Char.toLower

/-- Substring occurrence test on character lists, scanning start positions
left to right. -/
def isSubCL (needle : List Char) : List Char → Bool
  | [] => needle.isPrefixOf []
  | c :: cs => needle.isPrefixOf (c :: cs) || isSubCL needle cs

/-- Python `needle in hay` substring test. -/
def containsSub (hay needle : String) : Bool :=
  isSubCL needle.data hay.data

/-- Python `html.escape` applied to one character. -/
def escapeChar (c : Char) : List Char :=
  if c = '&' then "&amp;".data
  else if c = '<' then "&lt;".data
  else if c = '>' then "&gt;".data
  else if c = '"' then "&quot;".data
  else if c = '\'' then "&#x27;".data
  else [c]

/-- Python `html.escape(s)` (with the default `quote=True`). -/
def htmlEscape (l : List Char) : List Char := l.flatMap escapeChar

/-! ### `categorize_pattern` (`scripts/md_to_html.py`, lines 28–39) -/

/-- `categorize_pattern` from `scripts/md_to_html.py`: map a section name to a
category slug by case-insensitive substring match. -/
def categorize_pattern (section_name : String) : String :=
  let section_lower := String.mk (lowerCL section_name.data)
  if containsSub section_lower "model" then "models"
  else if containsSub section_lower "controller" then "controllers"
  else if containsSub section_lower "frontend" || containsSub section_lower "hotwire" then
    "frontend"
  else if containsSub section_lower "infrastructure" then "infrastructure"
  else "other"

/-- The fixed priority table of categories and their keywords, in the spec's
order: models → controllers → frontend/hotwire → infrastructure. -/
def categoryTable : List (String × List String) :=
  [("models", ["model"]),
   ("controllers", ["controller"]),
   ("frontend", ["frontend", "hotwire"]),
   ("infrastructure", ["infrastructure"])]

/-- Modelled from the spec's words: categorisation resolves to the *first*
category in the fixed priority list one of whose keywords occurs
(case-insensitively) in the section name, and to `other` when none matches. -/
def categorizeSpec (section_name : String) : String :=
  let low := String.mk (lowerCL section_name.data)
  match categoryTable.find? (fun e => e.2.any (fun kw => containsSub low kw)) with
  | some e => e.1
  | none => "other"

/-! ### `extract_keywords` (`scripts/md_to_html.py`, lines 41–54) -/

/-- The fixed stopword set `common_words` from `extract_keywords`. -/
def common_words : List String :=
  ["the", "a", "an", "and", "or", "but", "in", "on", "at", "to", "for", "of",
   "with", "by", "from", "as", "is", "are", "was", "were", "be", "been",
   "being", "have", "has", "had", "do", "does", "did", "will", "would",
   "should", "could", "may", "might", "can", "using", "use", "uses", "used"]

/-- A Python `\w` word character (ASCII fragment): letter, digit or underscore. -/
def isWordChar (c : Char) : Bool := c.isAlphanum || c = '_'

/-- First character class of the token regex `[a-z_]`. -/
def isTokStart (c : Char) : Bool := c.isLower || c = '_'

/-- Continuation character class of the token regex `[a-z0-9_]`. -/
def isTokCont (c : Char) : Bool := c.isLower || c.isDigit || c = '_'

/-- Maximal runs of word characters in a character list (the candidates for
`\b…\b`-delimited matches). -/
def wordRuns : List Char → List (List Char)
  | [] => []
  | [c] => if isWordChar c then [[c]] else []
  | c :: d :: cs =>
    if isWordChar c then
      if isWordChar d then
        match wordRuns (d :: cs) with
        | r :: rs => (c :: r) :: rs
        | [] => [[c]]
      else [c] :: wordRuns (d :: cs)
    else wordRuns (d :: cs)

/-- A maximal word-character run matches `\b[a-z_][a-z0-9_]*\b` exactly when it
starts with `[a-z_]` and continues with `[a-z0-9_]`. -/
def runIsToken : List Char → Bool
  | [] => false
  | c :: cs => isTokStart c && cs.all isTokCont

/-- `re.findall(r'\b[a-z_][a-z0-9_]*\b', text)`: the maximal word-character
runs of `text` that consist of the regex's character classes. -/
def findTokens (text : List Char) : List (List Char) :=
  (wordRuns text).filter runIsToken

/-- The `keywords` list built inside `extract_keywords`: the tokens of the
lowercased `name ++ " " ++ description` that survive the stopword and length
filters, in textual order. -/
def tokenWords (description pattern_name : String) : List String :=
  ((findTokens (lowerCL (pattern_name.data ++ ' ' :: description.data))).map String.mk).filter
    (fun w => ¬ (w ∈ common_words) && w.length > 2)

/-- Lexicographic order on character lists by code point, as Python compares
strings. -/
def lexLe : List Char → List Char → Bool
  | [], _ => true
  | a :: as, bs =>
    match bs with
    | [] => false
    | b :: bs =>
      if a.toNat < b.toNat then true
      else if b.toNat < a.toNat then false
      else lexLe as bs

/-- Python `s1 <= s2` on strings: lexicographic by code point. -/
def strLe (a b : String) : Prop := lexLe a.data b.data = true

instance : DecidableRel strLe := fun a b => instDecidableEqBool (lexLe a.data b.data) true

theorem lexLe_total : ∀ a b : List Char, lexLe a b = true ∨ lexLe b a = true := by
  intro a
  induction a with
  | nil => intro b; left; rfl
  | cons x xs ih =>
    intro b
    cases b with
    | nil => right; rfl
    | cons y ys =>
      simp only [lexLe]
      rcases Nat.lt_trichotomy x.toNat y.toNat with h | h | h
      · left; simp [h]
      · have h' : ¬ x.toNat < y.toNat := by omega
        have h'' : ¬ y.toNat < x.toNat := by omega
        rcases ih ys with hc | hc <;> simp [h', h'', hc]
      · right; simp [h]

theorem lexLe_trans : ∀ a b c : List Char,
    lexLe a b = true → lexLe b c = true → lexLe a c = true := by
  intro a
  induction a with
  | nil => intro b c _ _; rfl
  | cons x xs ih =>
    intro b c hab hbc
    cases b with
    | nil => simp [lexLe] at hab
    | cons y ys =>
      cases c with
      | nil => simp [lexLe] at hbc
      | cons z zs =>
        simp only [lexLe] at hab hbc ⊢
        by_cases h1 : x.toNat < y.toNat
        · by_cases h3 : z.toNat < y.toNat
          · by_cases h2 : y.toNat < z.toNat
            · simp [show x.toNat < z.toNat by omega]
            · simp [h2, h3] at hbc
          · simp [show x.toNat < z.toNat by omega]
        · by_cases h4 : y.toNat < x.toNat
          · simp [h1, h4] at hab
          · by_cases h2 : y.toNat < z.toNat
            · simp [show x.toNat < z.toNat by omega]
            · by_cases h3 : z.toNat < y.toNat
              · simp [h2, h3] at hbc
              · rw [if_neg h1, if_neg h4] at hab
                rw [if_neg h2, if_neg h3] at hbc
                rw [if_neg (show ¬ x.toNat < z.toNat by omega),
                  if_neg (show ¬ z.toNat < x.toNat by omega)]
                exact ih ys zs hab hbc

theorem lexLe_antisymm : ∀ a b : List Char,
    lexLe a b = true → lexLe b a = true → a = b := by
  intro a
  induction a with
  | nil =>
    intro b _ hba
    cases b with
    | nil => rfl
    | cons y ys => simp [lexLe] at hba
  | cons x xs ih =>
    intro b hab hba
    cases b with
    | nil => simp [lexLe] at hab
    | cons y ys =>
      simp only [lexLe] at hab hba
      rcases Nat.lt_trichotomy x.toNat y.toNat with h | h | h
      · exfalso
        have h1 : ¬ y.toNat < x.toNat := by omega
        simp [h, h1] at hba
      · have hx : x = y := Char.ext (UInt32.toNat.inj (h : x.val.toNat = y.val.toNat))
        have h1 : ¬ x.toNat < y.toNat := by omega
        have h2 : ¬ y.toNat < x.toNat := by omega
        rw [if_neg h1, if_neg h2] at hab
        rw [if_neg h2, if_neg h1] at hba
        exact congrArg₂ List.cons hx (ih ys hab hba)
      · exfalso
        have h1 : ¬ x.toNat < y.toNat := by omega
        simp [h, h1] at hab

instance : IsTotal String strLe := ⟨fun a b => lexLe_total a.data b.data⟩

instance : IsTrans String strLe := ⟨fun a b c => lexLe_trans a.data b.data c.data⟩

instance : IsAntisymm String strLe :=
  ⟨fun a b hab hba => by
    cases a; cases b
    exact congrArg String.mk (lexLe_antisymm _ _ hab hba)⟩

/-- The deduplicated, lexically sorted keyword list (`sorted(set(keywords))`).
`List.dedup` keeps first occurrences and sorting makes the order canonical,
which is exactly the (deterministic) value of Python's `sorted(set(...))`. -/
def keywordList (description pattern_name : String) : List String :=
  List.insertionSort strLe (tokenWords description pattern_name).dedup

/-- Python `' '.join(words)`. -/
def joinSpaces : List (List Char) → List Char
  | [] => []
  | [l] => l
  | l :: ls => l ++ ' ' :: joinSpaces ls

/-- `extract_keywords` from `scripts/md_to_html.py`: lowercase `name ++ " " ++
description`, tokenize, drop stopwords and short tokens, deduplicate, sort and
join with single spaces. -/
def extract_keywords (description pattern_name : String) : String :=
  String.mk (joinSpaces ((keywordList description pattern_name).map String.data))

end RubySnippets

namespace RubySnippets

/-! ### Claim C2 -/

/-- C2: categorisation of a section name is a total function computed by
case-insensitive substring match; it agrees everywhere with the spec's
first-match rule over the fixed priority order models → controllers →
frontend/hotwire → infrastructure → other, and takes the stated values on the
five sample names. -/
theorem categorize_pattern_correct :
    (∀ s : String, categorize_pattern s = categorizeSpec s) ∧
    categorize_pattern "User Models" = "models" ∧
    categorize_pattern "Controllers Overview" = "controllers" ∧
    categorize_pattern "Frontend/Hotwire Tips" = "frontend" ∧
    categorize_pattern "Deployment Infrastructure" = "infrastructure" ∧
    categorize_pattern "Misc Notes" = "other" := by
  refine ⟨fun s => ?_, by decide, by decide, by decide, by decide, by decide⟩
  simp only [categorize_pattern, categorizeSpec]
  cases h1 : containsSub (String.mk (lowerCL s.data)) "model" <;>
  cases h2 : containsSub (String.mk (lowerCL s.data)) "controller" <;>
  cases h3 : containsSub (String.mk (lowerCL s.data)) "frontend" <;>
  cases h4 : containsSub (String.mk (lowerCL s.data)) "hotwire" <;>
  cases h5 : containsSub (String.mk (lowerCL s.data)) "infrastructure" <;>
  simp [categoryTable, List.find?, h1, h2, h3, h4, h5]

/-! ### Claim C3 -/

/-- C3: the keyword indexer joins with single spaces the sorted, deduplicated
list of surviving tokens; the resulting list is lexically sorted, duplicate
free, and every member is a token of length > 2 outside the stopword set; and
the output depends only on the multiset of tokens of the input, hence is
independent of the order of words in the input.  Finally, the spec's sample
input evaluates as stated. -/
theorem extract_keywords_correct :
    (∀ d n : String, extract_keywords d n =
      String.mk (joinSpaces ((keywordList d n).map String.data))) ∧
    (∀ d n : String,
      (keywordList d n).Sorted strLe ∧ (keywordList d n).Nodup ∧
      ∀ w ∈ keywordList d n, 2 < w.length ∧ w ∉ common_words) ∧
    (∀ d₁ n₁ d₂ n₂ : String,
      List.Perm (findTokens (lowerCL (n₁.data ++ ' ' :: d₁.data)))
        (findTokens (lowerCL (n₂.data ++ ' ' :: d₂.data))) →
      extract_keywords d₁ n₁ = extract_keywords d₂ n₂) ∧
    extract_keywords "Uses the cache to speed up queries" "Cache Pattern" =
      "cache pattern queries speed" := by
  refine ⟨fun d n => rfl, fun d n => ⟨?_, ?_, ?_⟩, fun d₁ n₁ d₂ n₂ h => ?_, by decide⟩
  · exact List.sorted_insertionSort _ _
  · exact ((List.perm_insertionSort _ _).nodup_iff).mpr (List.nodup_dedup _)
  · intro w hw
    have hw' : w ∈ (tokenWords d n).dedup := (List.perm_insertionSort _ _).subset hw
    have hw'' : w ∈ tokenWords d n := (List.mem_dedup.mp hw')
    have := List.of_mem_filter hw''
    simp only [Bool.and_eq_true, decide_eq_true_eq, Bool.not_eq_true'] at this
    obtain ⟨h1, h2⟩ := this
    refine ⟨h2, ?_⟩
    simpa using h1
  · have hperm : List.Perm (tokenWords d₁ n₁) (tokenWords d₂ n₂) := (h.map String.mk).filter _
    have hperm' : List.Perm (tokenWords d₁ n₁).dedup (tokenWords d₂ n₂).dedup := hperm.dedup
    have : keywordList d₁ n₁ = keywordList d₂ n₂ := by
      refine List.eq_of_perm_of_sorted ?_ (List.sorted_insertionSort _ _)
        (List.sorted_insertionSort _ _)
      exact ((List.perm_insertionSort _ _).trans hperm').trans
        (List.perm_insertionSort _ _).symm
    simp [extract_keywords, this]

/-- Closed witness for the hypothesis-carrying part of `extract_keywords_correct`:
two inputs whose words are permutations of each other produce the same output. -/
theorem extract_keywords_correct_witness :
    extract_keywords "speed queries" "Cache Pattern" =
      extract_keywords "queries speed" "Pattern Cache" :=
  extract_keywords_correct.2.2.1 "speed queries" "Cache Pattern" "queries speed" "Pattern Cache"
    (by decide)

end RubySnippets

namespace RubySnippets

/-! ### The parsed pattern record and `merge_sections`
(`scripts/md_to_html.py`, lines 77–86 and 205–213) -/

/-- The pattern dictionary built by `parse_patterns`: six string fields. -/
structure MdPattern where
  name : List Char
  description : List Char
  rails_docs : List Char
  source : List Char
  code : List Char
  category : List Char
deriving DecidableEq

/-- A `sections` dictionary: insertion-ordered association list from section
name to its pattern list, as Python dicts preserve insertion order. -/
abbrev Sections := List (List Char × List MdPattern)

/-- One step of the merge loop: `if name not in merged: merged[name] = [];
merged[name].extend(patterns)`.  An existing key is extended in place (its
position kept); a new key is appended at the end. -/
def dictExtend (m : Sections) (k : List Char) (v : List MdPattern) : Sections :=
  match m with
  | [] => [(k, v)]
  | (k', v') :: rest =>
    if k' = k then (k', v' ++ v) :: rest else (k', v') :: dictExtend rest k v

/-- `merge_sections` from `scripts/md_to_html.py`: fold every source's
sections, in the order supplied, into one dictionary. -/
def merge_sections (all_sections : List Sections) : Sections :=
  all_sections.foldl
    (fun merged sections => sections.foldl (fun m e => dictExtend m e.1 e.2) merged) []

/-- All patterns registered under `name` in a sections dictionary, in order. -/
def sectionPats (s : Sections) (name : List Char) : List MdPattern :=
  (s.filter (fun e => e.1 = name)).flatMap (fun e => e.2)

/-- The keys of a sections dictionary. -/
def dKeys (s : Sections) : List (List Char) := s.map Prod.fst

theorem sectionPats_cons (a : List Char) (b : List MdPattern) (rest : Sections)
    (n : List Char) :
    sectionPats ((a, b) :: rest) n = (if a = n then b else []) ++ sectionPats rest n := by
  by_cases h : a = n <;> simp [sectionPats, h]

theorem dKeys_cons (e : List Char × List MdPattern) (s : Sections) :
    dKeys (e :: s) = e.1 :: dKeys s := rfl

theorem sectionPats_eq_nil_of_not_mem {s : Sections} {n : List Char}
    (h : n ∉ dKeys s) : sectionPats s n = [] := by
  induction s with
  | nil => rfl
  | cons e rest ih =>
    rw [dKeys_cons, List.mem_cons, not_or] at h
    obtain ⟨a, b⟩ := e
    rw [sectionPats_cons, if_neg (fun hc => h.1 hc.symm), ih h.2, List.nil_append]

theorem dKeys_dictExtend (m : Sections) (k : List Char) (v : List MdPattern) :
    dKeys (dictExtend m k v) = if k ∈ dKeys m then dKeys m else dKeys m ++ [k] := by
  induction m with
  | nil => simp [dictExtend, dKeys]
  | cons e rest ih =>
    obtain ⟨k', v'⟩ := e
    by_cases h : k' = k
    · simp [dictExtend, h, dKeys]
    · have hne : k ≠ k' := fun hc => h hc.symm
      have hstep : dictExtend ((k', v') :: rest) k v = (k', v') :: dictExtend rest k v := by
        simp [dictExtend, h]
      rw [hstep]
      simp only [dKeys_cons]
      rw [ih]
      by_cases hmem : k ∈ dKeys rest
      · rw [if_pos hmem, if_pos (List.mem_cons_of_mem k' hmem)]
      · rw [if_neg hmem, if_neg (fun hc => by
            rcases List.mem_cons.mp hc with h1 | h1
            exacts [hne h1, hmem h1]), List.cons_append]

theorem dKeys_dictExtend_nodup {m : Sections} (hm : (dKeys m).Nodup)
    (k : List Char) (v : List MdPattern) : (dKeys (dictExtend m k v)).Nodup := by
  rw [dKeys_dictExtend]
  by_cases hmem : k ∈ dKeys m
  · rwa [if_pos hmem]
  · rw [if_neg hmem]
    refine List.Nodup.append hm (List.nodup_singleton k) ?_
    intro a ha hb
    simp only [List.mem_singleton] at hb
    subst hb
    exact hmem ha

theorem sectionPats_dictExtend {m : Sections} (hm : (dKeys m).Nodup)
    (k : List Char) (v : List MdPattern) (n : List Char) :
    sectionPats (dictExtend m k v) n =
      sectionPats m n ++ (if k = n then v else []) := by
  induction m with
  | nil =>
    by_cases h : k = n <;> simp [dictExtend, sectionPats, h]
  | cons e rest ih =>
    obtain ⟨k', v'⟩ := e
    simp only [dKeys, List.map_cons, List.nodup_cons] at hm
    obtain ⟨hk', hrest⟩ := hm
    by_cases h : k' = k
    · subst h
      have hde : dictExtend ((k', v') :: rest) k' v = (k', v' ++ v) :: rest := by
        simp [dictExtend]
      rw [hde, sectionPats_cons, sectionPats_cons]
      by_cases hn : k' = n
      · subst hn
        rw [sectionPats_eq_nil_of_not_mem hk']
        simp
      · simp [hn]
    · have hde : dictExtend ((k', v') :: rest) k v = (k', v') :: dictExtend rest k v := by
        simp [dictExtend, h]
      rw [hde, sectionPats_cons, sectionPats_cons, ih hrest, List.append_assoc]

theorem sectionPats_foldl_inner {n : List Char} {src : Sections} :
    ∀ {m : Sections}, (dKeys m).Nodup →
    sectionPats (src.foldl (fun m e => dictExtend m e.1 e.2) m) n =
      sectionPats m n ++ sectionPats src n := by
  induction src with
  | nil => intro m _; simp [sectionPats]
  | cons e src' ih =>
    intro m hm
    obtain ⟨a, b⟩ := e
    simp only [List.foldl_cons]
    rw [ih (dKeys_dictExtend_nodup hm a b), sectionPats_dictExtend hm, sectionPats_cons,
      List.append_assoc]

theorem dKeys_foldl_inner_nodup {src : Sections} :
    ∀ {m : Sections}, (dKeys m).Nodup →
    (dKeys (src.foldl (fun m e => dictExtend m e.1 e.2) m)).Nodup := by
  induction src with
  | nil => intro m hm; exact hm
  | cons e src' ih =>
    intro m hm
    exact ih (dKeys_dictExtend_nodup hm e.1 e.2)

/-! ### Claim C4 -/

/-- C4: the merge step combines sections by name: for every list of sources
(in the order supplied) and every name, the merged dictionary's pattern list
for that name is the concatenation of the per-source pattern lists, with no
deduplication; in particular merging `[{Models: [A]}]` with `[{Models: [B]}]`
yields `{Models: [A, B]}`. -/
theorem merge_sections_correct :
    (∀ (srcs : List Sections) (name : List Char),
      sectionPats (merge_sections srcs) name =
        (srcs.map (fun s => sectionPats s name)).flatten) ∧
    (∀ A B : MdPattern,
      merge_sections [[("Models".data, [A])], [("Models".data, [B])]] =
        [("Models".data, [A, B])]) := by
  constructor
  · intro srcs name
    suffices h : ∀ (m : Sections), (dKeys m).Nodup →
        sectionPats (srcs.foldl
          (fun merged sections => sections.foldl (fun m e => dictExtend m e.1 e.2) merged) m)
          name =
          sectionPats m name ++ (srcs.map (fun s => sectionPats s name)).flatten by
      simpa [merge_sections, sectionPats] using h [] (by simp [dKeys])
    induction srcs with
    | nil => intro m _; simp [sectionPats]
    | cons src srcs' ih =>
      intro m hm
      simp only [List.foldl_cons, List.map_cons, List.flatten_cons]
      rw [ih _ (dKeys_foldl_inner_nodup hm), sectionPats_foldl_inner hm,
        List.append_assoc]
  · intro A B
    simp [merge_sections, dictExtend]

end RubySnippets

namespace RubySnippets

/-! ### The HTML renderer (`scripts/md_to_html.py`, lines 146–203) -/

/-- The per-section H2 header emitted by `generate_html` (line 162): the id is
the *derived* category slug of the section name. -/
def sectionHeaderHtml (section_name : List Char) (numPatterns : Nat) : List Char :=
  "<h2 id=\"".data ++ (categorize_pattern (String.mk section_name)).data ++ "\">".data
    ++ section_name ++ " (".data ++ (Nat.repr numPatterns).data ++ " patterns)</h2>".data

/-- The per-pattern HTML fragment emitted by `generate_html` (lines 171–188):
a container div with data attributes, title, description, then optional docs
link, source link and code block; absent optional fields contribute nothing,
but the `<p>` description element is emitted unconditionally. -/
def htmlPatternFragment (p : MdPattern) : List Char :=
  let keywords := (extract_keywords (String.mk p.description) (String.mk p.name)).data
  let base := "<div class=\"pattern\" data-category=\"".data ++ p.category
    ++ "\" data-keywords=\"".data ++ keywords
    ++ "\" data-name=\"".data ++ lowerCL p.name
    ++ "\">\n  <h3>".data ++ p.name
    ++ "</h3>\n  <p>".data ++ p.description ++ "</p>".data
  let withDocs := if p.rails_docs = [] then base
    else base ++ "\n  <div class=\"docs\">Rails Docs: ".data ++ p.rails_docs ++ "</div>".data
  let withSource := if p.source = [] then withDocs
    else withDocs ++ "\n  <div class=\"file\">source: ".data ++ p.source ++ "</div>".data
  let withCode := if p.code = [] then withSource
    else withSource ++ "\n  <pre><code>".data ++ p.code
      ++ "</code><button class=\"copy-btn\" onclick=\"copyCode(this)\">Copy</button></pre>".data
  withCode ++ "\n</div>\n".data

/-- The content-building loop of `generate_html` (lines 154–189): the list of
emitted HTML fragments (headers and pattern divs, later joined with newlines)
together with the running `total_patterns` count.  Sections whose pattern list
is empty are skipped. -/
def generateContent (sections : Sections) : List (List Char) × Nat :=
  sections.foldl
    (fun acc e =>
      if e.2.isEmpty then acc
      else
        e.2.foldl (fun a p => (a.1 ++ [htmlPatternFragment p], a.2 + 1))
          (acc.1 ++ [sectionHeaderHtml e.1 e.2.length], acc.2))
    ([], 0)

/-! ### Claim C7 -/

/-- C7: a merged section with an empty pattern sequence contributes no H2
header, no pattern fragment and nothing to the returned total pattern count:
deleting it from the input leaves the generated content and count unchanged,
and on its own it generates nothing. -/
theorem generate_html_skips_empty_sections :
    (∀ (pre post : Sections) (name : List Char),
      generateContent (pre ++ (name, ([] : List MdPattern)) :: post) =
        generateContent (pre ++ post)) ∧
    (∀ name : List Char, generateContent [(name, ([] : List MdPattern))] = ([], 0)) := by
  constructor
  · intro pre post name
    simp [generateContent, List.foldl_append]
  · intro name
    simp [generateContent]

end RubySnippets

namespace RubySnippets

/-! ### The extractor's data model and the Markdown renderer
(`convert_html_to_md.py`, lines 14–142) -/

/-- A pattern record as mined by `extract_patterns_from_html` and consumed by
`generate_markdown`.  `generate_markdown` reads `title` unconditionally; the
other fields are optional.  `docs` is the `(docs_url, docs_label)` pair, and
`source` the `(source_url, source_file)` pair — both captured from a single
structural match, hence both-or-neither. -/
structure HtmlPattern where
  title : List Char
  description : Option (List Char)
  docs : Option (List Char × List Char)
  source : Option (List Char × List Char)
  code : Option (List Char)
deriving DecidableEq

/-- A section record produced by `extract_patterns_from_html`. -/
structure HtmlSection where
  section_id : List Char
  section_name : List Char
  patterns : List HtmlPattern
deriving DecidableEq

/-- The Markdown lines appended for one pattern by `generate_markdown`
(lines 115–141): H3 title, then the optional description paragraph, docs-link
line, source-link line and fenced code block, each followed by a blank line;
absent fields contribute no lines at all. -/
def mdPatternLines (p : HtmlPattern) : List (List Char) :=
  ["### ".data ++ p.title, []]
  ++ (match p.description with
      | some d => [d, []]
      | none => [])
  ++ (match p.docs with
      | some du =>
        ["**Rails Docs:** [".data ++ du.2 ++ "](".data ++ du.1 ++ ")".data, []]
      | none => [])
  ++ (match p.source with
      | some su =>
        ["**Source:** [".data ++ su.2 ++ "](".data ++ su.1 ++ ")".data, []]
      | none => [])
  ++ (match p.code with
      | some c => ["```ruby".data, c, "```".data, []]
      | none => [])

/-- The Markdown lines appended for one section (lines 111–113). -/
def mdSectionLines (s : HtmlSection) : List (List Char) :=
  ["## ".data ++ s.section_name, []] ++ s.patterns.flatMap mdPatternLines

/-- One table-of-contents entry (line 105). -/
def tocLine (s : HtmlSection) : List Char :=
  "- [".data ++ s.section_name ++ "](#".data ++ s.section_id ++ ") (".data
    ++ (Nat.repr s.patterns.length).data ++ " patterns)".data

/-- `total_patterns` (line 101). -/
def totalPatternCount (sections : List HtmlSection) : Nat :=
  (sections.map (fun s => s.patterns.length)).sum

/-- The fixed front-matter block (lines 86–92), blank line included. -/
def frontmatterLines : List (List Char) :=
  ["---".data,
   "title: Basecamp Rails Patterns - Campfire".data,
   "description: Real-world Ruby on Rails patterns from Basecamp".data ++ '\'' ::
     "s open-source Campfire chat application".data,
   "topics: rails, ruby, hotwire, turbo, stimulus, activerecord, actioncable, sqlite, patterns".data,
   "source: https://github.com/basecamp/once-campfire".data,
   "---".data,
   []]

/-- The fixed title/description block (lines 95–98). -/
def mdHeaderLines : List (List Char) :=
  ["# Basecamp Rails Patterns - Campfire".data,
   [],
   "Comprehensive guide extracted from Campfire open-source codebase. This is a production Rails 7 application built by Basecamp, showcasing modern Rails patterns with Hotwire, real-time features, and pragmatic architectural decisions.".data,
   []]

/-- The `lines` list built by `generate_markdown` (lines 81–141). -/
def generate_markdown_lines (sections : List HtmlSection) : List (List Char) :=
  frontmatterLines
  ++ mdHeaderLines
  ++ ["## Table of Contents".data, []]
  ++ sections.map tocLine
  ++ [[], "**Total: ".data ++ (Nat.repr (totalPatternCount sections)).data ++ " patterns**".data,
      []]
  ++ sections.flatMap mdSectionLines

/-- `generate_markdown` (line 142): the lines joined with newlines. -/
def generate_markdown (sections : List HtmlSection) : List Char :=
  joinNl (generate_markdown_lines sections)

end RubySnippets

namespace RubySnippets

/-! ### Line-splitting toolkit: `splitNl` and `joinNl` interplay -/

theorem splitNl_ne_nil : ∀ l : List Char, splitNl l ≠ [] := by
  intro l
  induction l with
  | nil => simp [splitNl]
  | cons c cs ih =>
    simp only [splitNl]
    by_cases h : c = '\n'
    · simp [h]
    · rw [if_neg h]
      rcases hs : splitNl cs with _ | ⟨p, ps⟩ <;> simp

theorem splitNl_append_nl (a b : List Char) :
    splitNl (a ++ '\n' :: b) = splitNl a ++ splitNl b := by
  induction a with
  | nil => simp [splitNl]
  | cons c cs ih =>
    by_cases h : c = '\n'
    · simp [splitNl, h, ih]
    · rcases hs : splitNl cs with _ | ⟨p, ps⟩
      · exact absurd hs (splitNl_ne_nil cs)
      · simp only [List.cons_append, splitNl, h, if_neg, ite_false, not_false_iff,
          List.append_eq]
        rw [ih, hs]
        simp [List.cons_append]

theorem splitNl_nlfree {l : List Char} (h : '\n' ∉ l) : splitNl l = [l] := by
  induction l with
  | nil => rfl
  | cons c cs ih =>
    simp only [List.mem_cons, not_or] at h
    have hc : ¬ c = '\n' := fun hc => h.1 hc.symm
    simp [splitNl, hc, ih h.2]

/-- Peeling the first line off a split: `splitNl (a ++ '\n' :: b) = a :: splitNl b`
when `a` is newline-free. -/
theorem splitNl_peel {a : List Char} (b : List Char) (h : '\n' ∉ a) :
    splitNl (a ++ '\n' :: b) = a :: splitNl b := by
  rw [splitNl_append_nl, splitNl_nlfree h, List.singleton_append]

theorem splitNl_joinNl : ∀ (D : List (List Char)), D ≠ [] →
    splitNl (joinNl D) = D.flatMap splitNl := by
  intro D
  induction D with
  | nil => intro h; exact absurd rfl h
  | cons l ls ih =>
    intro _
    cases ls with
    | nil => simp [joinNl]
    | cons m ms =>
      simp only [joinNl, List.flatMap_cons]
      rw [splitNl_append_nl, ih (by simp)]
      simp [List.flatMap_cons]

theorem nlfree_append {a b : List Char} (ha : '\n' ∉ a) (hb : '\n' ∉ b) :
    '\n' ∉ a ++ b := by
  simp only [List.mem_append]
  rintro (h | h)
  exacts [ha h, hb h]

/-! ### Newline-freeness of derived values -/

theorem toNat_char_ofNat_small {n : Nat} (h : n < 55296) : (Char.ofNat n).toNat = n := by
  rw [Char.ofNat, dif_pos (Or.inl h : n.isValidChar)]
  simp [Char.ofNatAux, Char.toNat, UInt32.toNat]

theorem toLower_ne_nl {c : Char} (h : c ≠ '\n') : c.toLower ≠ '\n' := by
  simp only [Char.toLower]
  by_cases hc : c.toNat ≥ 65 ∧ c.toNat ≤ 90
  · rw [if_pos hc]
    intro he
    have h2 := congrArg Char.toNat he
    rw [toNat_char_ofNat_small (by omega)] at h2
    have h10 : ('\n').toNat = 10 := rfl
    omega
  · rw [if_neg hc]
    exact h

theorem lowerCL_nlfree {l : List Char} (h : '\n' ∉ l) : '\n' ∉ lowerCL l := by
  intro hm
  obtain ⟨c, hc, he⟩ := List.mem_map.mp hm
  exact toLower_ne_nl (fun hc' => h (hc' ▸ hc)) he

theorem mem_joinSpaces_chars {L : List (List Char)} {c : Char} (h : c ∈ joinSpaces L) :
    c = ' ' ∨ ∃ l ∈ L, c ∈ l := by
  induction L with
  | nil => simp [joinSpaces] at h
  | cons l ls ih =>
    cases ls with
    | nil =>
      right
      exact ⟨l, by simp, by simpa [joinSpaces] using h⟩
    | cons m ms =>
      simp only [joinSpaces, List.mem_append, List.mem_cons] at h
      rcases h with h | h | h
      · right; exact ⟨l, by simp, h⟩
      · left; exact h
      · rcases ih h with h' | ⟨w, hw, hcw⟩
        · left; exact h'
        · right; exact ⟨w, List.mem_cons_of_mem l hw, hcw⟩

theorem runIsToken_chars {r : List Char} (h : runIsToken r = true) :
    ∀ c ∈ r, (isTokStart c || isTokCont c) = true := by
  cases r with
  | nil => simp [runIsToken] at h
  | cons c cs =>
    simp only [runIsToken, Bool.and_eq_true, List.all_eq_true] at h
    intro x hx
    rcases List.mem_cons.mp hx with h1 | h1
    · subst h1; simp [h.1]
    · simp [h.2 x h1]

theorem keywordList_chars {d n w : String} (hw : w ∈ keywordList d n) :
    ∀ c ∈ w.data, (isTokStart c || isTokCont c) = true := by
  have h1 : w ∈ (tokenWords d n).dedup := (List.perm_insertionSort _ _).subset hw
  have h2 : w ∈ tokenWords d n := List.mem_dedup.mp h1
  have h3 : w ∈ (findTokens (lowerCL (n.data ++ ' ' :: d.data))).map String.mk :=
    List.mem_of_mem_filter h2
  obtain ⟨r, hr, rfl⟩ := List.mem_map.mp h3
  have h4 : runIsToken r = true := List.of_mem_filter hr
  intro c hc
  exact runIsToken_chars h4 c hc

theorem extract_keywords_nlfree (d n : String) : '\n' ∉ (extract_keywords d n).data := by
  intro hmem
  have h := mem_joinSpaces_chars (by simpa [extract_keywords] using hmem)
  rcases h with h | ⟨l, hl, hc⟩
  · exact absurd h (by decide)
  · obtain ⟨w, hw, rfl⟩ := List.mem_map.mp hl
    have := keywordList_chars hw '\n' hc
    simp [isTokStart, isTokCont] at this

end RubySnippets

namespace RubySnippets

/-! ### Claim C5 -/

/-- The label that opens every rendered Markdown docs-link line. -/
def mdDocsMarker : List Char := "**Rails Docs:**".data

/-- The text that opens every rendered HTML docs-link line. -/
def htmlDocsMarker : List Char := "  <div class=\"docs\">".data

/-- C5 counterexample: the HTML renderer does *not* omit an absent description:
a pattern whose description is empty still renders an empty `<p></p>`
placeholder, contradicting the claim for the description field. -/
theorem html_renderer_emits_empty_description_placeholder :
    isSubCL "<p></p>".data
      (htmlPatternFragment
        { name := "X".data, description := [], rails_docs := [],
          source := [], code := [], category := "other".data }) = true := by decide

/-- Exhaustive description of the lines a pattern contributes to the
Markdown document. -/
theorem mem_mdPatternLines {p : HtmlPattern} {l : List Char} (hl : l ∈ mdPatternLines p) :
    l = "### ".data ++ p.title ∨ l = [] ∨
    (∃ d, p.description = some d ∧ l = d) ∨
    (∃ du, p.docs = some du ∧
      l = "**Rails Docs:** [".data ++ du.2 ++ "](".data ++ du.1 ++ ")".data) ∨
    (∃ su, p.source = some su ∧
      l = "**Source:** [".data ++ su.2 ++ "](".data ++ su.1 ++ ")".data) ∨
    l = "```ruby".data ∨ (∃ c, p.code = some c ∧ l = c) ∨ l = "```".data := by
  obtain ⟨t, dopt, uopt, sopt, copt⟩ := p
  rcases dopt with _ | d <;> rcases uopt with _ | du <;> rcases sopt with _ | su <;>
    rcases copt with _ | c <;>
    simp_all [mdPatternLines] <;> tauto

end RubySnippets

namespace RubySnippets

/-- First output line of a pattern fragment: the opening container div with
its three data attributes. -/
def htmlLine1 (q : MdPattern) : List Char :=
  "<div class=\"pattern\" data-category=\"".data ++ q.category
    ++ "\" data-keywords=\"".data
    ++ (extract_keywords (String.mk q.description) (String.mk q.name)).data
    ++ "\" data-name=\"".data ++ lowerCL q.name ++ "\">".data

/-- Second output line: the title. -/
def htmlLine2 (q : MdPattern) : List Char :=
  "  <h3>".data ++ q.name ++ "</h3>".data

/-- Third output line: the (possibly empty) description paragraph. -/
def htmlLine3 (q : MdPattern) : List Char :=
  "  <p>".data ++ q.description ++ "</p>".data

/-- Source-link output line, emitted only when `source` is nonempty. -/
def htmlSourceLine (q : MdPattern) : List Char :=
  "  <div class=\"file\">source: ".data ++ q.source ++ "</div>".data

/-- Code-block output line, emitted only when `code` is nonempty. -/
def htmlCodeLine (q : MdPattern) : List Char :=
  "  <pre><code>".data ++ q.code
    ++ "</code><button class=\"copy-btn\" onclick=\"copyCode(this)\">Copy</button></pre>".data

set_option maxRecDepth 16000

/-- With newline-free fields and no docs link, a pattern fragment splits into
exactly its structural lines: container, title, description, then the optional
source and code lines, the closing `</div>` and a trailing empty line. -/
theorem splitNl_htmlPatternFragment (q : MdPattern) (hdocs : q.rails_docs = [])
    (h1 : '\n' ∉ q.name) (h2 : '\n' ∉ q.description) (h3 : '\n' ∉ q.source)
    (h4 : '\n' ∉ q.code) (h5 : '\n' ∉ q.category) :
    splitNl (htmlPatternFragment q) =
      [htmlLine1 q, htmlLine2 q, htmlLine3 q]
      ++ (if q.source = [] then [] else [htmlSourceLine q])
      ++ (if q.code = [] then [] else [htmlCodeLine q])
      ++ ["</div>".data, []] := by
  have hn1 : '\n' ∉ htmlLine1 q :=
    nlfree_append (nlfree_append (nlfree_append (nlfree_append (nlfree_append
      (nlfree_append (by decide) h5) (by decide))
      (extract_keywords_nlfree (String.mk q.description) (String.mk q.name)))
      (by decide)) (lowerCL_nlfree h1)) (by decide)
  have hn2 : '\n' ∉ htmlLine2 q :=
    nlfree_append (nlfree_append (by decide) h1) (by decide)
  have hn3 : '\n' ∉ htmlLine3 q :=
    nlfree_append (nlfree_append (by decide) h2) (by decide)
  have hnS : '\n' ∉ htmlSourceLine q :=
    nlfree_append (nlfree_append (by decide) h3) (by decide)
  have hnC : '\n' ∉ htmlCodeLine q :=
    nlfree_append (nlfree_append (by decide) h4) (by decide)
  by_cases hs : q.source = [] <;> by_cases hc : q.code = []
  · have hshape : htmlPatternFragment q =
        htmlLine1 q ++ '\n' :: (htmlLine2 q ++ '\n' :: (htmlLine3 q
          ++ '\n' :: ("</div>".data ++ '\n' :: []))) := by
      simp [htmlPatternFragment, hdocs, hs, hc, htmlLine1, htmlLine2, htmlLine3,
        List.append_assoc]
    rw [hshape, splitNl_peel _ hn1, splitNl_peel _ hn2, splitNl_peel _ hn3,
      splitNl_peel _ (by decide)]
    simp [hs, hc, splitNl]
  · have hshape : htmlPatternFragment q =
        htmlLine1 q ++ '\n' :: (htmlLine2 q ++ '\n' :: (htmlLine3 q
          ++ '\n' :: (htmlCodeLine q ++ '\n' :: ("</div>".data ++ '\n' :: [])))) := by
      simp [htmlPatternFragment, hdocs, hs, hc, htmlLine1, htmlLine2, htmlLine3,
        htmlCodeLine, List.append_assoc]
    rw [hshape, splitNl_peel _ hn1, splitNl_peel _ hn2, splitNl_peel _ hn3,
      splitNl_peel _ hnC, splitNl_peel _ (by decide)]
    simp [hs, hc, splitNl]
  · have hshape : htmlPatternFragment q =
        htmlLine1 q ++ '\n' :: (htmlLine2 q ++ '\n' :: (htmlLine3 q
          ++ '\n' :: (htmlSourceLine q ++ '\n' :: ("</div>".data ++ '\n' :: [])))) := by
      simp [htmlPatternFragment, hdocs, hs, hc, htmlLine1, htmlLine2, htmlLine3,
        htmlSourceLine, List.append_assoc]
    rw [hshape, splitNl_peel _ hn1, splitNl_peel _ hn2, splitNl_peel _ hn3,
      splitNl_peel _ hnS, splitNl_peel _ (by decide)]
    simp [hs, hc, splitNl]
  · have hshape : htmlPatternFragment q =
        htmlLine1 q ++ '\n' :: (htmlLine2 q ++ '\n' :: (htmlLine3 q
          ++ '\n' :: (htmlSourceLine q ++ '\n' :: (htmlCodeLine q
          ++ '\n' :: ("</div>".data ++ '\n' :: []))))) := by
      simp [htmlPatternFragment, hdocs, hs, hc, htmlLine1, htmlLine2, htmlLine3,
        htmlSourceLine, htmlCodeLine, List.append_assoc]
    rw [hshape, splitNl_peel _ hn1, splitNl_peel _ hn2, splitNl_peel _ hn3,
      splitNl_peel _ hnS, splitNl_peel _ hnC, splitNl_peel _ (by decide)]
    simp [hs, hc, splitNl]

end RubySnippets

namespace RubySnippets

set_option maxRecDepth 16000

/-- Docs-link output line, emitted only when `rails_docs` is nonempty. -/
def htmlDocsLine (q : MdPattern) : List Char :=
  "  <div class=\"docs\">Rails Docs: ".data ++ q.rails_docs ++ "</div>".data

/-- The text that opens every rendered HTML source-link line. -/
def htmlSourceMarker : List Char := "  <div class=\"file\">".data

/-- The text that opens every rendered HTML code block. -/
def htmlCodeMarker : List Char := "  <pre><code>".data

/-- With newline-free fields, a pattern fragment splits into exactly its
structural lines: container, title, description, then the optional docs,
source and code lines, the closing `</div>` and a trailing empty line. -/
theorem splitNl_htmlPatternFragment_full (q : MdPattern)
    (h1 : '\n' ∉ q.name) (h2 : '\n' ∉ q.description) (h3 : '\n' ∉ q.rails_docs)
    (h4 : '\n' ∉ q.source) (h5 : '\n' ∉ q.code) (h6 : '\n' ∉ q.category) :
    splitNl (htmlPatternFragment q) =
      [htmlLine1 q, htmlLine2 q, htmlLine3 q]
      ++ (if q.rails_docs = [] then [] else [htmlDocsLine q])
      ++ (if q.source = [] then [] else [htmlSourceLine q])
      ++ (if q.code = [] then [] else [htmlCodeLine q])
      ++ ["</div>".data, []] := by
  have hn1 : '\n' ∉ htmlLine1 q :=
    nlfree_append (nlfree_append (nlfree_append (nlfree_append (nlfree_append
      (nlfree_append (by decide) h6) (by decide))
      (extract_keywords_nlfree (String.mk q.description) (String.mk q.name)))
      (by decide)) (lowerCL_nlfree h1)) (by decide)
  have hn2 : '\n' ∉ htmlLine2 q :=
    nlfree_append (nlfree_append (by decide) h1) (by decide)
  have hn3 : '\n' ∉ htmlLine3 q :=
    nlfree_append (nlfree_append (by decide) h2) (by decide)
  have hnD : '\n' ∉ htmlDocsLine q :=
    nlfree_append (nlfree_append (by decide) h3) (by decide)
  have hnS : '\n' ∉ htmlSourceLine q :=
    nlfree_append (nlfree_append (by decide) h4) (by decide)
  have hnC : '\n' ∉ htmlCodeLine q :=
    nlfree_append (nlfree_append (by decide) h5) (by decide)
  by_cases hd : q.rails_docs = [] <;> by_cases hs : q.source = [] <;>
    by_cases hc : q.code = []
  · have hshape : htmlPatternFragment q =
        htmlLine1 q ++ '\n' :: (htmlLine2 q ++ '\n' :: (htmlLine3 q
          ++ '\n' :: ("</div>".data ++ '\n' :: []))) := by
      simp [htmlPatternFragment, hd, hs, hc, htmlLine1, htmlLine2, htmlLine3,
        List.append_assoc]
    rw [hshape, splitNl_peel _ hn1, splitNl_peel _ hn2, splitNl_peel _ hn3,
      splitNl_peel _ (by decide)]
    simp [hd, hs, hc, splitNl]
  · have hshape : htmlPatternFragment q =
        htmlLine1 q ++ '\n' :: (htmlLine2 q ++ '\n' :: (htmlLine3 q
          ++ '\n' :: (htmlCodeLine q ++ '\n' :: ("</div>".data ++ '\n' :: [])))) := by
      simp [htmlPatternFragment, hd, hs, hc, htmlLine1, htmlLine2, htmlLine3,
        htmlCodeLine, List.append_assoc]
    rw [hshape, splitNl_peel _ hn1, splitNl_peel _ hn2, splitNl_peel _ hn3,
      splitNl_peel _ hnC, splitNl_peel _ (by decide)]
    simp [hd, hs, hc, splitNl]
  · have hshape : htmlPatternFragment q =
        htmlLine1 q ++ '\n' :: (htmlLine2 q ++ '\n' :: (htmlLine3 q
          ++ '\n' :: (htmlSourceLine q ++ '\n' :: ("</div>".data ++ '\n' :: [])))) := by
      simp [htmlPatternFragment, hd, hs, hc, htmlLine1, htmlLine2, htmlLine3,
        htmlSourceLine, List.append_assoc]
    rw [hshape, splitNl_peel _ hn1, splitNl_peel _ hn2, splitNl_peel _ hn3,
      splitNl_peel _ hnS, splitNl_peel _ (by decide)]
    simp [hd, hs, hc, splitNl]
  · have hshape : htmlPatternFragment q =
        htmlLine1 q ++ '\n' :: (htmlLine2 q ++ '\n' :: (htmlLine3 q
          ++ '\n' :: (htmlSourceLine q ++ '\n' :: (htmlCodeLine q
          ++ '\n' :: ("</div>".data ++ '\n' :: []))))) := by
      simp [htmlPatternFragment, hd, hs, hc, htmlLine1, htmlLine2, htmlLine3,
        htmlSourceLine, htmlCodeLine, List.append_assoc]
    rw [hshape, splitNl_peel _ hn1, splitNl_peel _ hn2, splitNl_peel _ hn3,
      splitNl_peel _ hnS, splitNl_peel _ hnC, splitNl_peel _ (by decide)]
    simp [hd, hs, hc, splitNl]
  · have hshape : htmlPatternFragment q =
        htmlLine1 q ++ '\n' :: (htmlLine2 q ++ '\n' :: (htmlLine3 q
          ++ '\n' :: (htmlDocsLine q ++ '\n' :: ("</div>".data ++ '\n' :: [])))) := by
      simp [htmlPatternFragment, hd, hs, hc, htmlLine1, htmlLine2, htmlLine3,
        htmlDocsLine, List.append_assoc]
    rw [hshape, splitNl_peel _ hn1, splitNl_peel _ hn2, splitNl_peel _ hn3,
      splitNl_peel _ hnD, splitNl_peel _ (by decide)]
    simp [hd, hs, hc, splitNl]
  · have hshape : htmlPatternFragment q =
        htmlLine1 q ++ '\n' :: (htmlLine2 q ++ '\n' :: (htmlLine3 q
          ++ '\n' :: (htmlDocsLine q ++ '\n' :: (htmlCodeLine q
          ++ '\n' :: ("</div>".data ++ '\n' :: []))))) := by
      simp [htmlPatternFragment, hd, hs, hc, htmlLine1, htmlLine2, htmlLine3,
        htmlDocsLine, htmlCodeLine, List.append_assoc]
    rw [hshape, splitNl_peel _ hn1, splitNl_peel _ hn2, splitNl_peel _ hn3,
      splitNl_peel _ hnD, splitNl_peel _ hnC, splitNl_peel _ (by decide)]
    simp [hd, hs, hc, splitNl]
  · have hshape : htmlPatternFragment q =
        htmlLine1 q ++ '\n' :: (htmlLine2 q ++ '\n' :: (htmlLine3 q
          ++ '\n' :: (htmlDocsLine q ++ '\n' :: (htmlSourceLine q
          ++ '\n' :: ("</div>".data ++ '\n' :: []))))) := by
      simp [htmlPatternFragment, hd, hs, hc, htmlLine1, htmlLine2, htmlLine3,
        htmlDocsLine, htmlSourceLine, List.append_assoc]
    rw [hshape, splitNl_peel _ hn1, splitNl_peel _ hn2, splitNl_peel _ hn3,
      splitNl_peel _ hnD, splitNl_peel _ hnS, splitNl_peel _ (by decide)]
    simp [hd, hs, hc, splitNl]
  · have hshape : htmlPatternFragment q =
        htmlLine1 q ++ '\n' :: (htmlLine2 q ++ '\n' :: (htmlLine3 q
          ++ '\n' :: (htmlDocsLine q ++ '\n' :: (htmlSourceLine q
          ++ '\n' :: (htmlCodeLine q ++ '\n' :: ("</div>".data ++ '\n' :: [])))))) := by
      simp [htmlPatternFragment, hd, hs, hc, htmlLine1, htmlLine2, htmlLine3,
        htmlDocsLine, htmlSourceLine, htmlCodeLine, List.append_assoc]
    rw [hshape, splitNl_peel _ hn1, splitNl_peel _ hn2, splitNl_peel _ hn3,
      splitNl_peel _ hnD, splitNl_peel _ hnS, splitNl_peel _ hnC,
      splitNl_peel _ (by decide)]
    simp [hd, hs, hc, splitNl]

set_option maxHeartbeats 1000000 in
/-- Exhaustive description of the lines of a fragment with newline-free
fields: every line is one of the structural lines, the optional ones present
only when their field is nonempty. -/
theorem mem_splitNl_htmlPatternFragment {q : MdPattern} {l : List Char}
    (h1 : '\n' ∉ q.name) (h2 : '\n' ∉ q.description) (h3 : '\n' ∉ q.rails_docs)
    (h4 : '\n' ∉ q.source) (h5 : '\n' ∉ q.code) (h6 : '\n' ∉ q.category)
    (hl : l ∈ splitNl (htmlPatternFragment q)) :
    l = htmlLine1 q ∨ l = htmlLine2 q ∨ l = htmlLine3 q ∨
      (q.rails_docs ≠ [] ∧ l = htmlDocsLine q) ∨
      (q.source ≠ [] ∧ l = htmlSourceLine q) ∨
      (q.code ≠ [] ∧ l = htmlCodeLine q) ∨ l = "</div>".data ∨ l = [] := by
  rw [splitNl_htmlPatternFragment_full q h1 h2 h3 h4 h5 h6] at hl
  by_cases hd : q.rails_docs = [] <;> by_cases hs : q.source = [] <;>
    by_cases hc : q.code = [] <;> simp [hd, hs, hc] at hl <;> tauto

end RubySnippets

namespace RubySnippets

end RubySnippets

namespace RubySnippets

/-! ### Template placeholder substitution (`scripts/md_to_html.py`, lines 192–196) -/

/-- Fuel-indexed worker for Python `s.replace(pat, rep)`: scan left to right,
replacing non-overlapping occurrences.  The fuel only serves to make the
function structurally recursive; `replaceAll` supplies enough fuel. -/
def replFuel (pat rep : List Char) : Nat → List Char → List Char
  | _, [] => []
  | 0, s => s
  | f + 1, c :: cs =>
    match pat with
    | [] => c :: cs
    | _ :: _ =>
      if pat.isPrefixOf (c :: cs) then
        rep ++ replFuel pat rep f (List.drop pat.length (c :: cs))
      else c :: replFuel pat rep f cs

/-- Python `s.replace(pat, rep)` for the nonempty placeholder tokens used by
the source (an empty pattern returns `s` unchanged). -/
def replaceAll (s pat rep : List Char) : List Char := replFuel pat rep s.length s

theorem replFuel_congr {pat rep : List Char} :
    ∀ (f : Nat) {g : Nat} (s : List Char), s.length ≤ f → s.length ≤ g →
      replFuel pat rep f s = replFuel pat rep g s := by
  intro f
  induction f with
  | zero =>
    intro g s hf _
    have : s = [] := List.length_eq_zero.mp (Nat.le_zero.mp hf)
    subst this
    cases g <;> rfl
  | succ f ih =>
    intro g s hf hg
    cases s with
    | nil => cases g <;> rfl
    | cons c cs =>
      cases g with
      | zero => simp at hg
      | succ g' =>
        cases pat with
        | nil => rfl
        | cons p ps =>
          simp only [replFuel]
          by_cases hpre : (p :: ps).isPrefixOf (c :: cs) = true
          · rw [if_pos hpre, if_pos hpre]
            congr 1
            apply ih
            · simp only [List.length_drop, List.length_cons]
              simp only [List.length_cons] at hf
              omega
            · simp only [List.length_drop, List.length_cons]
              simp only [List.length_cons] at hg
              omega
          · rw [if_neg hpre, if_neg hpre]
            congr 1
            apply ih
            · simp only [List.length_cons] at hf; omega
            · simp only [List.length_cons] at hg; omega

theorem replaceAll_nil (pat rep : List Char) : replaceAll [] pat rep = [] := rfl

theorem replaceAll_empty_pat (s rep : List Char) : replaceAll s [] rep = s := by
  cases s <;> rfl

theorem replaceAll_pos {pat : List Char} (rep : List Char) {c : Char} {cs : List Char}
    (hne : pat ≠ []) (hpre : pat.isPrefixOf (c :: cs) = true) :
    replaceAll (c :: cs) pat rep =
      rep ++ replaceAll (List.drop pat.length (c :: cs)) pat rep := by
  cases pat with
  | nil => exact absurd rfl hne
  | cons p ps =>
    show replFuel _ _ (cs.length + 1) _ = _
    simp only [replFuel, hpre, if_pos, ite_true]
    congr 1
    apply replFuel_congr
    · simp only [List.length_drop, List.length_cons]; omega
    · exact Nat.le_refl _

theorem replaceAll_neg {pat : List Char} (rep : List Char) {c : Char} {cs : List Char}
    (hne : pat ≠ []) (hpre : pat.isPrefixOf (c :: cs) = false) :
    replaceAll (c :: cs) pat rep = c :: replaceAll cs pat rep := by
  cases pat with
  | nil => exact absurd rfl hne
  | cons p ps =>
    show replFuel _ _ (cs.length + 1) _ = _
    simp only [replFuel, hpre, Bool.false_eq_true, if_neg, ite_false, not_false_iff]
    rfl

/-- A pattern that does not occur in the text is not replaced: the text is
returned unchanged (and no error is raised — the function is total). -/
theorem replaceAll_of_not_sub {pat rep : List Char} (hne : pat ≠ []) :
    ∀ {s : List Char}, isSubCL pat s = false → replaceAll s pat rep = s := by
  intro s
  induction s with
  | nil => intro _; rfl
  | cons c cs ih =>
    intro hsub
    simp only [isSubCL, Bool.or_eq_false_iff] at hsub
    rw [replaceAll_neg rep hne hsub.1, ih hsub.2]

/-- The five placeholder tokens recognised by `generate_html`. -/
def placeholderTokens : List (List Char) :=
  ["\x7b\x7bTITLE\x7d\x7d".data, "\x7b\x7bPROJECT_NAME\x7d\x7d".data,
   "\x7b\x7bDESCRIPTION\x7d\x7d".data, "\x7b\x7bCONTENT\x7d\x7d".data,
   "\x7b\x7bTIMESTAMP\x7d\x7d".data]

/-- Sequential application of `(pattern, replacement)` pairs, left to right. -/
def applySubsts (s : List Char) (pairs : List (List Char × List Char)) : List Char :=
  pairs.foldl (fun t pr => replaceAll t pr.1 pr.2) s

/-- The placeholder substitution performed by `generate_html` (lines 192–196):
literal text replacement of the five tokens in the fixed source order, with
the frontmatter title substituted for both `TITLE` and `PROJECT_NAME`. -/
def substitute_template (template title description content timestamp : List Char) :
    List Char :=
  replaceAll (replaceAll (replaceAll (replaceAll (replaceAll template
    "\x7b\x7bTITLE\x7d\x7d".data title)
    "\x7b\x7bPROJECT_NAME\x7d\x7d".data title)
    "\x7b\x7bDESCRIPTION\x7d\x7d".data description)
    "\x7b\x7bCONTENT\x7d\x7d".data content)
    "\x7b\x7bTIMESTAMP\x7d\x7d".data timestamp

/-- C6 counterexample: substitution is *not* order-independent for every set
of replacement values.  With the template `{{TITLE}}`, a TITLE value that
itself contains the DESCRIPTION token, and a DESCRIPTION value `X`, the five
substitutions applied in two different orders (permutations of one another)
give different outputs. -/
theorem substitution_not_order_independent :
    applySubsts "\x7b\x7bTITLE\x7d\x7d".data
        [("\x7b\x7bTITLE\x7d\x7d".data, "\x7b\x7bDESCRIPTION\x7d\x7d".data),
         ("\x7b\x7bPROJECT_NAME\x7d\x7d".data, []),
         ("\x7b\x7bDESCRIPTION\x7d\x7d".data, "X".data),
         ("\x7b\x7bCONTENT\x7d\x7d".data, []),
         ("\x7b\x7bTIMESTAMP\x7d\x7d".data, [])] ≠
      applySubsts "\x7b\x7bTITLE\x7d\x7d".data
        [("\x7b\x7bDESCRIPTION\x7d\x7d".data, "X".data),
         ("\x7b\x7bPROJECT_NAME\x7d\x7d".data, []),
         ("\x7b\x7bTITLE\x7d\x7d".data, "\x7b\x7bDESCRIPTION\x7d\x7d".data),
         ("\x7b\x7bCONTENT\x7d\x7d".data, []),
         ("\x7b\x7bTIMESTAMP\x7d\x7d".data, [])] := by decide

end RubySnippets

namespace RubySnippets

/-! ### Well-formed templates: alternations of brace-free text and tokens -/

/-- A piece of a well-formed template: either literal text (brace-free when
well-formed) or one placeholder-token occurrence. -/
inductive TPiece where
  | lit (s : List Char) : TPiece
  | ph (t : List Char) : TPiece
deriving DecidableEq

/-- Flatten a piece list back into template text. -/
def renderPieces : List TPiece → List Char
  | [] => []
  | .lit s :: rest => s ++ renderPieces rest
  | .ph t :: rest => t ++ renderPieces rest

/-- Contains neither `{` nor `}`. -/
def braceFree (s : List Char) : Bool :=
  s.all (fun c => ¬ c = '\x7b' && ¬ c = '\x7d')

/-- A well-formed piece: brace-free literal text, or one of the five tokens. -/
def wfPiece : TPiece → Bool
  | .lit s => braceFree s
  | .ph t => placeholderTokens.contains t

/-- A well-formed template decomposition. -/
def wfPieces (L : List TPiece) : Bool := L.all wfPiece

/-- Substitution acting on one piece: the matching token becomes its
replacement text, everything else is untouched. -/
def substPiece (pat rep : List Char) : TPiece → TPiece
  | .lit s => .lit s
  | .ph t => if t = pat then .lit rep else .ph t

theorem isPrefixOf_iff_of_lists {a b : List Char} :
    a.isPrefixOf b = true ↔ a <+: b := List.isPrefixOf_iff_prefix

/-- A prefix of `y ++ b` is comparable with `y`. -/
theorem prefix_append_cases {x y b : List Char} (h : x.isPrefixOf (y ++ b) = true) :
    x.isPrefixOf y = true ∨ y.isPrefixOf x = true := by
  have h1 : x <+: y ++ b := isPrefixOf_iff_of_lists.mp h
  have h2 : y <+: y ++ b := List.prefix_append y b
  rcases List.prefix_or_prefix_of_prefix h1 h2 with h3 | h3
  · exact Or.inl (isPrefixOf_iff_of_lists.mpr h3)
  · exact Or.inr (isPrefixOf_iff_of_lists.mpr h3)

/-- No start position inside `u` begins an occurrence of `pat` in `u ++ b`. -/
def noStartIn (pat u b : List Char) : Prop :=
  ∀ i, i < u.length → pat.isPrefixOf (List.drop i u ++ b) = false

/-- Scanning passes over a region with no pattern start. -/
theorem replaceAll_pass_over {pat rep : List Char} (hne : pat ≠ []) :
    ∀ (u b : List Char), noStartIn pat u b →
      replaceAll (u ++ b) pat rep = u ++ replaceAll b pat rep := by
  intro u
  induction u with
  | nil => intro b _; rfl
  | cons c cs ih =>
    intro b hns
    have h0 : pat.isPrefixOf (c :: (cs ++ b)) = false := by
      have := hns 0 (by simp)
      simpa using this
    have hns' : noStartIn pat cs b := by
      intro i hi
      have := hns (i + 1) (by simp; omega)
      simpa using this
    rw [List.cons_append, @replaceAll_neg pat rep c (cs ++ b) hne h0, ih b hns',
      List.cons_append]

/-- Within a brace-free region no token occurrence can start. -/
theorem noStartIn_of_braceFree {pat u : List Char} (b : List Char)
    (hpat : pat ∈ placeholderTokens) (hu : braceFree u = true) :
    noStartIn pat u b := by
  intro i hi
  obtain ⟨ps, hps⟩ : ∃ ps, pat = '\x7b' :: ps := by
    simp only [placeholderTokens, List.mem_cons, List.not_mem_nil, or_false] at hpat
    rcases hpat with rfl | rfl | rfl | rfl | rfl <;> exact ⟨_, rfl⟩
  subst hps
  rw [List.drop_eq_getElem_cons hi]
  by_contra hcon
  have hpre := Bool.ne_false_iff.mp hcon
  rw [List.cons_append] at hpre
  simp only [List.isPrefixOf, Bool.and_eq_true] at hpre
  have hc : ('\x7b' == u[i]) = true := hpre.1
  have hmem : u[i] ∈ u := List.getElem_mem hi
  have hall := List.all_eq_true.mp hu _ hmem
  simp only [beq_iff_eq] at hc
  simp [← hc] at hall

/-- Decidable check: no occurrence of `pat` can start strictly inside or at
the head of the distinct token `t` (comparability with every suffix of `t`
fails). -/
def innerFree (t pat : List Char) : Prop :=
  ∀ i, i < t.length →
    pat.isPrefixOf (List.drop i t) = false ∧ (List.drop i t).isPrefixOf pat = false

instance (t pat : List Char) : Decidable (innerFree t pat) := by
  unfold innerFree
  infer_instance

theorem noStartIn_of_innerFree {pat t : List Char} (b : List Char)
    (hif : innerFree t pat) : noStartIn pat t b := by
  intro i hi
  by_contra hcon
  have hpre := Bool.ne_false_iff.mp hcon
  rcases prefix_append_cases hpre with h | h
  · exact absurd h (by simp [(hif i hi).1])
  · exact absurd h (by simp [(hif i hi).2])

/-- The pairwise inner-freeness of the five distinct tokens. -/
theorem tokens_innerFree :
    ∀ t ∈ placeholderTokens, ∀ p ∈ placeholderTokens, t ≠ p → innerFree t p := by
  decide

theorem tokens_ne_nil : ∀ t ∈ placeholderTokens, t ≠ [] := by decide

end RubySnippets

namespace RubySnippets

theorem replaceAll_head_match {pat : List Char} (rep : List Char) (hne : pat ≠ [])
    (b : List Char) : replaceAll (pat ++ b) pat rep = rep ++ replaceAll b pat rep := by
  cases pat with
  | nil => exact absurd rfl hne
  | cons p ps =>
    have hpre : (p :: ps).isPrefixOf (p :: (ps ++ b)) = true := by
      rw [show p :: (ps ++ b) = (p :: ps) ++ b from rfl]
      exact isPrefixOf_iff_of_lists.mpr (List.prefix_append _ _)
    rw [show (p :: ps) ++ b = p :: (ps ++ b) from rfl,
      @replaceAll_pos (p :: ps) rep p (ps ++ b) (by simp) hpre]
    congr 1
    rw [show p :: (ps ++ b) = (p :: ps) ++ b from rfl, List.drop_left]

/-- One `str.replace` pass over a well-formed template acts exactly as the
abstract per-piece substitution. -/
theorem replaceAll_renderPieces {pat rep : List Char} (hpat : pat ∈ placeholderTokens) :
    ∀ L : List TPiece, wfPieces L = true →
      replaceAll (renderPieces L) pat rep =
        renderPieces (L.map (substPiece pat rep)) := by
  have hne : pat ≠ [] := tokens_ne_nil pat hpat
  intro L
  induction L with
  | nil => intro _; rfl
  | cons piece rest ih =>
    intro hwf
    simp only [wfPieces, List.all_cons, Bool.and_eq_true] at hwf
    obtain ⟨hp, hrest⟩ := hwf
    have hrest' : wfPieces rest = true := hrest
    cases piece with
    | lit s =>
      have hs : braceFree s = true := hp
      rw [show renderPieces (TPiece.lit s :: rest) = s ++ renderPieces rest from rfl,
        replaceAll_pass_over hne s _ (noStartIn_of_braceFree _ hpat hs), ih hrest']
      rfl
    | ph t =>
      have ht : t ∈ placeholderTokens := by
        have : placeholderTokens.elem t = true := hp
        exact List.elem_iff.mp this
      by_cases hteq : t = pat
      · subst hteq
        rw [show renderPieces (TPiece.ph t :: rest) = t ++ renderPieces rest from rfl,
          replaceAll_head_match rep hne _, ih hrest']
        simp [substPiece, renderPieces]
      · rw [show renderPieces (TPiece.ph t :: rest) = t ++ renderPieces rest from rfl,
          replaceAll_pass_over hne t _
            (noStartIn_of_innerFree _ (tokens_innerFree t ht pat hpat hteq)),
          ih hrest']
        simp [substPiece, hteq, renderPieces]

theorem wfPieces_map_subst {pat rep : List Char} (hrep : braceFree rep = true)
    {L : List TPiece} (hL : wfPieces L = true) :
    wfPieces (L.map (substPiece pat rep)) = true := by
  simp only [wfPieces, List.all_eq_true] at *
  intro p hp
  obtain ⟨q, hq, rfl⟩ := List.mem_map.mp hp
  have hq' := hL q hq
  cases q with
  | lit s => simpa [substPiece] using hq'
  | ph t =>
    by_cases ht : t = pat
    · simp [substPiece, ht, wfPiece, hrep]
    · simpa [substPiece, ht] using hq'

/-- Sequential substitution over a well-formed template equals the abstract
fold of per-piece substitutions. -/
theorem applySubsts_renderPieces :
    ∀ (pairs : List (List Char × List Char)) (L : List TPiece), wfPieces L = true →
      (∀ pr ∈ pairs, pr.1 ∈ placeholderTokens ∧ braceFree pr.2 = true) →
      applySubsts (renderPieces L) pairs =
        renderPieces (pairs.foldl (fun M pr => M.map (substPiece pr.1 pr.2)) L) := by
  intro pairs
  induction pairs with
  | nil => intro L _ _; rfl
  | cons pr rest ih =>
    intro L hL hprs
    have h1 := hprs pr (List.mem_cons_self pr rest)
    calc applySubsts (renderPieces L) (pr :: rest)
        = applySubsts (replaceAll (renderPieces L) pr.1 pr.2) rest := rfl
      _ = applySubsts (renderPieces (L.map (substPiece pr.1 pr.2))) rest := by
          rw [replaceAll_renderPieces h1.1 L hL]
      _ = renderPieces (rest.foldl (fun M pr => M.map (substPiece pr.1 pr.2))
            (L.map (substPiece pr.1 pr.2))) :=
          ih _ (wfPieces_map_subst h1.2 hL)
            (fun q hq => hprs q (List.mem_cons_of_mem _ hq))
      _ = renderPieces ((pr :: rest).foldl (fun M pr => M.map (substPiece pr.1 pr.2)) L) :=
          rfl

theorem foldl_perm_of_comm {α β : Type} {f : β → α → β} :
    ∀ {l₁ l₂ : List α}, List.Perm l₁ l₂ →
      (∀ x ∈ l₁, ∀ y ∈ l₁, ∀ z, f (f z x) y = f (f z y) x) →
      ∀ b, l₁.foldl f b = l₂.foldl f b := by
  intro l₁ l₂ hp
  induction hp with
  | nil => intro _ b; rfl
  | cons x p ih =>
    intro hcomm b
    simp only [List.foldl_cons]
    exact ih (fun a ha c hc z =>
      hcomm a (List.mem_cons_of_mem _ ha) c (List.mem_cons_of_mem _ hc) z) _
  | swap x y l =>
    intro hcomm b
    simp only [List.foldl_cons]
    rw [hcomm y (by simp) x (by simp) b]
  | trans p₁ p₂ ih₁ ih₂ =>
    intro hcomm b
    rw [ih₁ hcomm b,
      ih₂ (fun a ha c hc z => hcomm a (p₁.mem_iff.mpr ha) c (p₁.mem_iff.mpr hc) z) b]

theorem substMap_comm {x y : List Char × List Char} (hxy : x.1 ≠ y.1)
    (z : List TPiece) :
    (z.map (substPiece x.1 x.2)).map (substPiece y.1 y.2) =
      (z.map (substPiece y.1 y.2)).map (substPiece x.1 x.2) := by
  rw [List.map_map, List.map_map]
  apply List.map_congr_left
  intro e _
  cases e with
  | lit s => rfl
  | ph t =>
    by_cases hx : t = x.1
    · subst hx
      simp [substPiece, hxy, Function.comp]
    · by_cases hy : t = y.1
      · simp [substPiece, hx, hy, Ne.symm hxy, Function.comp]
      · simp [substPiece, hx, hy, Function.comp]

end RubySnippets

namespace RubySnippets

/-! ### Claim C6 -/

/-- C6 (amended): placeholder substitution is literal text replacement of the
five tokens applied in the fixed source order TITLE, PROJECT_NAME,
DESCRIPTION, CONTENT, TIMESTAMP (with the title value used for both TITLE and
PROJECT_NAME); a token that does not occur in the template is simply not
replaced (no error); and the result is independent of the order in which the
token substitutions are applied whenever the template is an alternation of
brace-free text and complete placeholder tokens and no replacement value
contains a brace character. -/
theorem template_substitution_correct :
    (∀ template title description content timestamp : List Char,
      substitute_template template title description content timestamp =
        applySubsts template
          [("\x7b\x7bTITLE\x7d\x7d".data, title),
           ("\x7b\x7bPROJECT_NAME\x7d\x7d".data, title),
           ("\x7b\x7bDESCRIPTION\x7d\x7d".data, description),
           ("\x7b\x7bCONTENT\x7d\x7d".data, content),
           ("\x7b\x7bTIMESTAMP\x7d\x7d".data, timestamp)]) ∧
    (∀ s pat rep : List Char, pat ≠ [] → isSubCL pat s = false →
      replaceAll s pat rep = s) ∧
    (∀ (L : List TPiece) (pairs₁ pairs₂ : List (List Char × List Char)),
      wfPieces L = true →
      (∀ pr ∈ pairs₁, pr.1 ∈ placeholderTokens ∧ braceFree pr.2 = true) →
      (pairs₁.map Prod.fst).Nodup →
      List.Perm pairs₁ pairs₂ →
      applySubsts (renderPieces L) pairs₁ = applySubsts (renderPieces L) pairs₂) := by
  refine ⟨fun t a d c ts => rfl,
    fun s pat rep hne hsub => replaceAll_of_not_sub hne hsub, ?_⟩
  intro L p₁ p₂ hL hprs hnodup hperm
  rw [applySubsts_renderPieces p₁ L hL hprs,
    applySubsts_renderPieces p₂ L hL (fun q hq => hprs q (hperm.mem_iff.mpr hq))]
  congr 1
  apply foldl_perm_of_comm hperm ?_ L
  intro x hx y hy z
  by_cases hxy : x = y
  · subst hxy; rfl
  · have hfst : x.1 ≠ y.1 := fun he =>
      hxy (List.inj_on_of_nodup_map hnodup hx hy he)
    exact substMap_comm hfst z

/-- Closed witness for `template_substitution_correct` at a concrete
well-formed template and two concrete substitution orders. -/
theorem template_substitution_correct_witness :
    applySubsts
        (renderPieces
          [TPiece.lit "a".data, TPiece.ph "\x7b\x7bTITLE\x7d\x7d".data,
           TPiece.lit "b".data])
        [("\x7b\x7bTITLE\x7d\x7d".data, "T".data),
         ("\x7b\x7bPROJECT_NAME\x7d\x7d".data, "T".data),
         ("\x7b\x7bDESCRIPTION\x7d\x7d".data, "D".data),
         ("\x7b\x7bCONTENT\x7d\x7d".data, "C".data),
         ("\x7b\x7bTIMESTAMP\x7d\x7d".data, "S".data)] =
      applySubsts
        (renderPieces
          [TPiece.lit "a".data, TPiece.ph "\x7b\x7bTITLE\x7d\x7d".data,
           TPiece.lit "b".data])
        [("\x7b\x7bTIMESTAMP\x7d\x7d".data, "S".data),
         ("\x7b\x7bCONTENT\x7d\x7d".data, "C".data),
         ("\x7b\x7bDESCRIPTION\x7d\x7d".data, "D".data),
         ("\x7b\x7bPROJECT_NAME\x7d\x7d".data, "T".data),
         ("\x7b\x7bTITLE\x7d\x7d".data, "T".data)] :=
  template_substitution_correct.2.2 _ _ _ (by decide) (by decide) (by decide) (by decide)

end RubySnippets

namespace RubySnippets

/-! ### The HTML→Pattern extractor (`convert_html_to_md.py`, lines 14–79) -/

/-- A pattern record as mined from one block: every field optional, exactly
as the Python dict. -/
structure RawPattern where
  title : Option (List Char)
  description : Option (List Char)
  docs : Option (List Char × List Char)
  source : Option (List Char × List Char)
  code : Option (List Char)
deriving DecidableEq

/-- A section triple produced by the `re.split` on h2 markers. -/
structure RawSection where
  section_id : List Char
  section_name : List Char
  patterns : List RawPattern
deriving DecidableEq

/-- The deterministic tail of the h2 regex after the `[^>]*` gap:
`id="([^"]+)"[^>]*>([^<]+)</h2>`. -/
def h2TailParse (u : List Char) : Option (List Char × List Char × List Char) :=
  if "id=\"".data.isPrefixOf u then
    let u1 := u.drop 4
    let idt := u1.takeWhile (fun c => ¬ c = '"')
    if idt = [] then none
    else
      let u2 := u1.drop idt.length
      if "\"".data.isPrefixOf u2 then
        let u3 := u2.drop 1
        let gap := u3.takeWhile (fun c => ¬ c = '>')
        let u4 := u3.drop gap.length
        if ">".data.isPrefixOf u4 then
          let u5 := u4.drop 1
          let nm := u5.takeWhile (fun c => ¬ c = '<')
          if nm = [] then none
          else
            let u6 := u5.drop nm.length
            if "</h2>".data.isPrefixOf u6 then some (idt, nm, u6.drop 5)
            else none
        else none
      else none
  else none

/-- Greedy backtracking over the `[^>]*` gap: try the longest gap first. -/
def h2Go (after : List Char) : Nat → Option (List Char × List Char × List Char)
  | 0 => h2TailParse after
  | k + 1 =>
    match h2TailParse (after.drop (k + 1)) with
    | some r => some r
    | none => h2Go after k

/-- Try the h2 regex anchored at the start of `s`. -/
def matchH2At (s : List Char) : Option (List Char × List Char × List Char) :=
  if "<h2".data.isPrefixOf s then
    let after := s.drop 3
    h2Go after (after.takeWhile (fun c => ¬ c = '>')).length
  else none

/-- Leftmost h2 match: the text before it, the two captures, and the rest. -/
def findH2 : List Char → Option (List Char × (List Char × List Char × List Char))
  | [] => none
  | c :: cs =>
    match matchH2At (c :: cs) with
    | some r => some ([], r)
    | none =>
      match findH2 cs with
      | some (pre, r) => some (c :: pre, r)
      | none => none

/-- `re.split` on the h2 regex, producing the leading text and the
`(id, name, content)` triples (fuel-indexed; each match consumes at least one
character, so `s.length` fuel always suffices). -/
def splitH2Fuel : Nat → List Char → List Char × List (List Char × List Char × List Char)
  | 0, s => (s, [])
  | f + 1, s =>
    match findH2 s with
    | none => (s, [])
    | some (pre, (i, n, rest)) =>
      let r := splitH2Fuel f rest
      (pre, (i, n, r.1) :: r.2)

def splitH2 (s : List Char) : List Char × List (List Char × List Char × List Char) :=
  splitH2Fuel s.length s

/-- Whitespace class of the regex `\s` (ASCII fragment). -/
def isPyWs (c : Char) : Bool := isWsChar c

/-- The lookahead `(?=<div class="pattern|<h2|<div class="generated|$)`. -/
def blockLookahead (t : List Char) : Bool :=
  "<div class=\"pattern".data.isPrefixOf t || "<h2".data.isPrefixOf t ||
    "<div class=\"generated".data.isPrefixOf t || t.isEmpty

/-- Non-greedy search for the block terminator `</div>\s*` followed by the
lookahead; returns the block content and the rest after the match. -/
def findBlockEnd : List Char → Option (List Char × List Char)
  | [] => none
  | c :: cs =>
    if "</div>".data.isPrefixOf (c :: cs) then
      let after := (c :: cs).drop 6
      let tail := after.drop (after.takeWhile isPyWs).length
      if blockLookahead tail then some ([], tail)
      else
        match findBlockEnd cs with
        | some (content, rest) => some (c :: content, rest)
        | none => none
    else
      match findBlockEnd cs with
      | some (content, rest) => some (c :: content, rest)
      | none => none

/-- Try the block opener `<div class="pattern[^"]*">` anchored at `s`,
returning the text after the opening tag. -/
def blockStartAt (s : List Char) : Option (List Char) :=
  if "<div class=\"pattern".data.isPrefixOf s then
    let u := s.drop 19
    let cls := u.takeWhile (fun c => ¬ c = '"')
    let u2 := u.drop cls.length
    if "\">".data.isPrefixOf u2 then some (u2.drop 2) else none
  else none

/-- `re.findall` of the pattern-block regex over a section's content
(fuel-indexed; fuel `s.length + 1` always suffices). -/
def findAllBlocks : Nat → List Char → List (List Char)
  | 0, _ => []
  | _ + 1, [] => []
  | f + 1, c :: cs =>
    match blockStartAt (c :: cs) with
    | some u =>
      match findBlockEnd u with
      | some (content, rest) => content :: findAllBlocks f rest
      | none => findAllBlocks f cs
    | none => findAllBlocks f cs

/-- Generic leftmost-match scan: try `attempt` at every start position. -/
def scanFor {α : Type} (attempt : List Char → Option α) : List Char → Option α
  | [] => attempt []
  | c :: cs =>
    match attempt (c :: cs) with
    | some r => some r
    | none => scanFor attempt cs

/-- `<h3>([^<]+)</h3>` anchored at `s`. -/
def titleAt (s : List Char) : Option (List Char) :=
  if "<h3>".data.isPrefixOf s then
    let t := (s.drop 4).takeWhile (fun c => ¬ c = '<')
    if t = [] then none
    else if "</h3>".data.isPrefixOf ((s.drop 4).drop t.length) then some t else none
  else none

/-- `<p>([^<]+)</p>` anchored at `s`. -/
def descAt (s : List Char) : Option (List Char) :=
  if "<p>".data.isPrefixOf s then
    let t := (s.drop 3).takeWhile (fun c => ¬ c = '<')
    if t = [] then none
    else if "</p>".data.isPrefixOf ((s.drop 3).drop t.length) then some t else none
  else none

/-- `<div class="docs"><a href="([^"]+)"[^>]*>([^<]+)</a></div>` (or the
`file` variant) anchored at `s`; returns `(url, label)`. -/
def linkAt (opener : List Char) (s : List Char) : Option (List Char × List Char) :=
  if opener.isPrefixOf s then
    let u := s.drop opener.length
    let url := u.takeWhile (fun c => ¬ c = '"')
    if url = [] then none
    else
      let u2 := u.drop url.length
      if "\"".data.isPrefixOf u2 then
        let u3 := u2.drop 1
        let gap := u3.takeWhile (fun c => ¬ c = '>')
        let u4 := u3.drop gap.length
        if ">".data.isPrefixOf u4 then
          let u5 := u4.drop 1
          let lbl := u5.takeWhile (fun c => ¬ c = '<')
          if lbl = [] then none
          else if "</a></div>".data.isPrefixOf (u5.drop lbl.length) then some (url, lbl)
          else none
        else none
      else none
  else none

/-- Split at the first occurrence of a literal: `(before, after)`. -/
def splitAtLit (lit : List Char) : List Char → Option (List Char × List Char)
  | [] => if lit.isPrefixOf [] then some ([], []) else none
  | c :: cs =>
    if lit.isPrefixOf (c :: cs) then some ([], (c :: cs).drop lit.length)
    else
      match splitAtLit lit cs with
      | some (a, b) => some (c :: a, b)
      | none => none

/-- `<pre><code>(.*?)</code></pre>` (DOTALL, non-greedy) anchored at `s`. -/
def codeAt (s : List Char) : Option (List Char) :=
  if "<pre><code>".data.isPrefixOf s then
    match splitAtLit "</code></pre>".data (s.drop 11) with
    | some (code, _) => some code
    | none => none
  else none

/-- The ASCII fragment of Python `html.unescape` covering the entities
produced by `html.escape` (the only ones `html.escape` emits, hence the only
ones a round-tripped guide contains). `html.unescape` itself is a standard
library collaborator. -/
def unescapeCL : List Char → List Char
  | [] => []
  | '&' :: 'a' :: 'm' :: 'p' :: ';' :: rest => '&' :: unescapeCL rest
  | '&' :: 'l' :: 't' :: ';' :: rest => '<' :: unescapeCL rest
  | '&' :: 'g' :: 't' :: ';' :: rest => '>' :: unescapeCL rest
  | '&' :: 'q' :: 'u' :: 'o' :: 't' :: ';' :: rest => '"' :: unescapeCL rest
  | '&' :: '#' :: 'x' :: '2' :: '7' :: ';' :: rest => '\'' :: unescapeCL rest
  | c :: rest => c :: unescapeCL rest

/-- Mine the five optional fields from one block (lines 38–71). -/
def extractPatternFromBlock (block : List Char) : RawPattern :=
  { title := (scanFor titleAt block).map pstrip,
    description := (scanFor descAt block).map pstrip,
    docs := scanFor (linkAt "<div class=\"docs\"><a href=\"".data) block,
    source := scanFor (linkAt "<div class=\"file\"><a href=\"".data) block,
    code := (scanFor codeAt block).map (fun c => pstrip (unescapeCL c)) }

/-- `extract_patterns_from_html` (lines 14–79): split on h2 markers, mine each
section's pattern blocks. -/
def extract_patterns_from_html (html_content : List Char) : List RawSection :=
  ((splitH2 html_content).2).map (fun t =>
    { section_id := t.1, section_name := t.2.1,
      patterns := (findAllBlocks (t.2.2.length + 1) t.2.2).map extractPatternFromBlock })

/-! ### Claim C8 -/

/-- C8: an input with zero h2 section markers extracts to the empty sequence
of sections — the extractor is total and raises no error. -/
theorem extractor_empty_on_no_h2 (html : List Char) (hf : findH2 html = none) :
    extract_patterns_from_html html = [] := by
  simp only [extract_patterns_from_html, splitH2]
  cases hn : html.length with
  | zero => simp [splitH2Fuel]
  | succ n => simp [splitH2Fuel, hf]

/-- Closed witness: a concrete document with no h2 marker extracts to `[]`. -/
theorem extractor_empty_on_no_h2_witness :
    extract_patterns_from_html "<p>hello</p>".data = [] :=
  extractor_empty_on_no_h2 _ (by decide)

end RubySnippets

namespace RubySnippets

/-! ### The Markdown parser `parse_patterns` (`scripts/md_to_html.py`, lines 56–144)

Python mutates the `current_pattern` dict in place after appending it to the
current section's list; the state below models this aliasing with an explicit
heap of pattern records addressed by creation index. -/

/-- The parser state: the heap of all pattern dicts ever created (in creation
order), the sections dictionary mapping names to heap indices, and the two
cursors `current_section` and `current_pattern`. -/
structure ParseState where
  heap : List MdPattern
  secs : List (List Char × List Nat)
  curSec : Option (List Char)
  cur : Option Nat
deriving DecidableEq

def defaultPat : MdPattern :=
  { name := [], description := [], rails_docs := [], source := [], code := [],
    category := [] }

def initState : ParseState := { heap := [], secs := [], curSec := none, cur := none }

/-- `line.startswith('## ') and not line.startswith('## Table')`. -/
def isH2Open (line : List Char) : Bool :=
  "## ".data.isPrefixOf line && ¬ "## Table".data.isPrefixOf line

/-- Python truthiness of `current_section` (`None` and the empty string are
falsy). -/
def curSecTruthy (st : ParseState) : Bool :=
  match st.curSec with
  | some s => ¬ s.isEmpty
  | none => false

/-- Python `sections[current_section] = []`-style key assignment: overwrite in
place, else append. -/
def dictSet : List (List Char × List Nat) → List Char → List Nat →
    List (List Char × List Nat)
  | [], k, v => [(k, v)]
  | (k', v') :: rest, k, v =>
    if k' = k then (k', v) :: rest else (k', v') :: dictSet rest k v

/-- `sections[current_section].append(pattern)`: append a heap index to an
existing key.  An absent key would raise `KeyError` in Python and is
unreachable from the parser entry point; the model leaves the dictionary
unchanged there. -/
def dictAppendIdx : List (List Char × List Nat) → List Char → Nat →
    List (List Char × List Nat)
  | [], _, _ => []
  | (k', v') :: rest, k, i =>
    if k' = k then (k', v' ++ [i]) :: rest else (k', v') :: dictAppendIdx rest k i

/-- In-place mutation of the heap cell `i`. -/
def heapModify (heap : List MdPattern) (i : Nat) (f : MdPattern → MdPattern) :
    List MdPattern :=
  match heap[i]? with
  | some p => heap.set i (f p)
  | none => heap

/-- The fresh pattern dict created at an H3 line (lines 79–86). -/
def mkNewPattern (name secName : List Char) : MdPattern :=
  { name := name, description := [], rails_docs := [], source := [], code := [],
    category := (categorize_pattern (String.mk secName)).data }

/-- `re.search(r'\[([^\]]+)\]\(([^\)]+)\)', line)` anchored at one position:
returns `(text, url)`. -/
def linkMdAt (s : List Char) : Option (List Char × List Char) :=
  match s with
  | '[' :: rest =>
    let t := rest.takeWhile (fun c => ¬ c = ']')
    if t = [] then none
    else
      let r2 := rest.drop t.length
      if "](".data.isPrefixOf r2 then
        let u := (r2.drop 2).takeWhile (fun c => ¬ c = ')')
        if u = [] then none
        else if ")".data.isPrefixOf ((r2.drop 2).drop u.length) then some (t, u)
        else none
      else none
  | _ => none

/-- The anchor string built for a recognised link (lines 108 and 119). -/
def mkAnchor (url text : List Char) : List Char :=
  "<a href=\"".data ++ url ++ "\" target=\"_blank\">".data ++ text ++ "</a>".data

def curIdx (st : ParseState) : Nat := st.cur.getD 0

/-- Handle a `**Rails Docs:**` or `**Source:**` line: store the anchor on the
current pattern when the line contains a Markdown link, else do nothing. -/
def applyLink (st : ParseState) (line : List Char) (isDocs : Bool) : ParseState :=
  match scanFor linkMdAt line with
  | some (t, u) =>
    { st with heap := heapModify st.heap (curIdx st) (fun p =>
        if isDocs then { p with rails_docs := mkAnchor u t }
        else { p with source := mkAnchor u t }) }
  | none => st

/-- Store the (HTML-escaped) captured code on the current pattern. -/
def setCode (st : ParseState) (code : List Char) : ParseState :=
  { st with heap := heapModify st.heap (curIdx st) (fun p => { p with code := code }) }

/-- The description branch (lines 139–140): the first unlabeled non-blank
line while the current pattern's description is still empty becomes the
description; later such lines are dropped. -/
def applyDesc (st : ParseState) (line : List Char) : ParseState :=
  if (st.heap.getD (curIdx st) defaultPat).description = [] &&
      ¬ "**".data.isPrefixOf line then
    let h := heapModify st.heap (curIdx st) (fun p => { p with description := pstrip line })
    { st with heap := h }
  else st

/-- The new state at an H2 section-header line (lines 69–74): the section
key is (re)assigned the empty list and becomes current; the pattern cursor is
*not* reset. -/
def stH2 (st : ParseState) (line : List Char) : ParseState :=
  let sc := dictSet st.secs (pstrip (line.drop 3)) []
  { st with curSec := some (pstrip (line.drop 3)), secs := sc }

/-- The new state at an H3 pattern-header line (lines 77–89): a fresh pattern
dict is created, appended to the current section, and becomes current. -/
def stH3 (st : ParseState) (line : List Char) : ParseState :=
  let h := st.heap ++ [mkNewPattern (pstrip (line.drop 4)) (st.curSec.getD [])]
  let sc := dictAppendIdx st.secs (st.curSec.getD []) st.heap.length
  { st with heap := h, secs := sc, cur := some st.heap.length }

/-- The parser loop (fuel-indexed; each step consumes at least one line, so
`lines.length` fuel always suffices). -/
def parseFuel : Nat → ParseState → List (List Char) → ParseState
  | _, st, [] => st
  | 0, st, _ :: _ => st
  | f + 1, st, line :: rest =>
    if isH2Open line then parseFuel f (stH2 st line) rest
    else if "### ".data.isPrefixOf line && curSecTruthy st then
      parseFuel f (stH3 st line) rest
    else if (pstrip line).isEmpty then parseFuel f st rest
    else if st.cur.isNone then parseFuel f st rest
    else if "**Rails Docs:**".data.isPrefixOf line then
      parseFuel f (applyLink st line true) rest
    else if "**Source:**".data.isPrefixOf line then
      parseFuel f (applyLink st line false) rest
    else if "```".data.isPrefixOf line then
      let codeLines := rest.takeWhile (fun l => ¬ "```".data.isPrefixOf l)
      parseFuel f (setCode st (htmlEscape (joinNl codeLines)))
        ((rest.drop codeLines.length).drop 1)
    else parseFuel f (applyDesc st line) rest

def parseLinesFrom (st : ParseState) (lines : List (List Char)) : ParseState :=
  parseFuel lines.length st lines

/-- Dereference the sections dictionary through the heap: the parser's
return value. -/
def assemble (st : ParseState) : List (List Char × List MdPattern) :=
  st.secs.map (fun e => (e.1, e.2.map (fun i => st.heap.getD i defaultPat)))

def parsePatternsLines (lines : List (List Char)) : List (List Char × List MdPattern) :=
  assemble (parseLinesFrom initState lines)

/-- `parse_patterns` (lines 56–144): split the content on newlines and run
the line loop. -/
def parse_patterns (content : List Char) : List (List Char × List MdPattern) :=
  parsePatternsLines (splitNl content)

end RubySnippets

namespace RubySnippets

theorem parseFuel_congr : ∀ (f : Nat) {g : Nat} (st : ParseState) (lines : List (List Char)),
    lines.length ≤ f → lines.length ≤ g → parseFuel f st lines = parseFuel g st lines := by
  intro f
  induction f with
  | zero =>
    intro g st lines hf _
    have : lines = [] := List.length_eq_zero.mp (Nat.le_zero.mp hf)
    subst this
    cases g <;> rfl
  | succ f ih =>
    intro g st lines hf hg
    cases lines with
    | nil => cases g <;> rfl
    | cons line rest =>
      cases g with
      | zero => simp at hg
      | succ g' =>
        have hr : rest.length ≤ f := by
          simp only [List.length_cons] at hf; omega
        have hr' : rest.length ≤ g' := by
          simp only [List.length_cons] at hg; omega
        simp only [parseFuel]
        split
        · exact ih _ _ hr hr'
        · split
          · exact ih _ _ hr hr'
          · split
            · exact ih _ _ hr hr'
            · split
              · exact ih _ _ hr hr'
              · split
                · exact ih _ _ hr hr'
                · split
                  · exact ih _ _ hr hr'
                  · split
                    · apply ih
                      · calc ((rest.drop (rest.takeWhile
                            (fun l => ¬ "```".data.isPrefixOf l)).length).drop 1).length
                            ≤ rest.length := by
                              simp only [List.length_drop]; omega
                          _ ≤ f := hr
                      · calc ((rest.drop (rest.takeWhile
                            (fun l => ¬ "```".data.isPrefixOf l)).length).drop 1).length
                            ≤ rest.length := by
                              simp only [List.length_drop]; omega
                          _ ≤ g' := hr'
                    · exact ih _ _ hr hr'

end RubySnippets

namespace RubySnippets

/-! ### Step equations for the parser loop -/

theorem parseLines_nil (st : ParseState) : parseLinesFrom st [] = st := rfl

theorem parseLines_h2 (st : ParseState) (line : List Char) (rest : List (List Char))
    (h : isH2Open line = true) :
    parseLinesFrom st (line :: rest) = parseLinesFrom (stH2 st line) rest := by
  simp only [parseLinesFrom, List.length_cons, parseFuel, h, ite_true, if_pos]

theorem parseLines_h3 (st : ParseState) (line : List Char) (rest : List (List Char))
    (h1 : isH2Open line = false)
    (h2 : ("### ".data.isPrefixOf line && curSecTruthy st) = true) :
    parseLinesFrom st (line :: rest) = parseLinesFrom (stH3 st line) rest := by
  simp only [parseLinesFrom, List.length_cons, parseFuel, h1, h2, Bool.false_eq_true,
    ite_true, ite_false, if_pos, if_neg, not_false_iff]

theorem parseLines_blank (st : ParseState) (line : List Char) (rest : List (List Char))
    (h1 : isH2Open line = false)
    (h2 : ("### ".data.isPrefixOf line && curSecTruthy st) = false)
    (h3 : (pstrip line).isEmpty = true) :
    parseLinesFrom st (line :: rest) = parseLinesFrom st rest := by
  simp only [parseLinesFrom, List.length_cons, parseFuel, h1, h2, h3, Bool.false_eq_true,
    ite_true, ite_false, if_pos, if_neg, not_false_iff]

theorem parseLines_nopat (st : ParseState) (line : List Char) (rest : List (List Char))
    (h1 : isH2Open line = false)
    (h2 : ("### ".data.isPrefixOf line && curSecTruthy st) = false)
    (h3 : (pstrip line).isEmpty = false)
    (h4 : st.cur.isNone = true) :
    parseLinesFrom st (line :: rest) = parseLinesFrom st rest := by
  simp only [parseLinesFrom, List.length_cons, parseFuel, h1, h2, h3, h4,
    Bool.false_eq_true, ite_true, ite_false, if_pos, if_neg, not_false_iff]

theorem parseLines_docs (st : ParseState) (line : List Char) (rest : List (List Char))
    (h1 : isH2Open line = false)
    (h2 : ("### ".data.isPrefixOf line && curSecTruthy st) = false)
    (h3 : (pstrip line).isEmpty = false)
    (h4 : st.cur.isNone = false)
    (h5 : "**Rails Docs:**".data.isPrefixOf line = true) :
    parseLinesFrom st (line :: rest) = parseLinesFrom (applyLink st line true) rest := by
  simp only [parseLinesFrom, List.length_cons, parseFuel, h1, h2, h3, h4, h5,
    Bool.false_eq_true, ite_true, ite_false, if_pos, if_neg, not_false_iff]

theorem parseLines_source (st : ParseState) (line : List Char) (rest : List (List Char))
    (h1 : isH2Open line = false)
    (h2 : ("### ".data.isPrefixOf line && curSecTruthy st) = false)
    (h3 : (pstrip line).isEmpty = false)
    (h4 : st.cur.isNone = false)
    (h5 : "**Rails Docs:**".data.isPrefixOf line = false)
    (h6 : "**Source:**".data.isPrefixOf line = true) :
    parseLinesFrom st (line :: rest) = parseLinesFrom (applyLink st line false) rest := by
  simp only [parseLinesFrom, List.length_cons, parseFuel, h1, h2, h3, h4, h5, h6,
    Bool.false_eq_true, ite_true, ite_false, if_pos, if_neg, not_false_iff]

theorem parseLines_fence (st : ParseState) (line : List Char) (rest : List (List Char))
    (h1 : isH2Open line = false)
    (h2 : ("### ".data.isPrefixOf line && curSecTruthy st) = false)
    (h3 : (pstrip line).isEmpty = false)
    (h4 : st.cur.isNone = false)
    (h5 : "**Rails Docs:**".data.isPrefixOf line = false)
    (h6 : "**Source:**".data.isPrefixOf line = false)
    (h7 : "```".data.isPrefixOf line = true) :
    parseLinesFrom st (line :: rest) =
      parseLinesFrom
        (setCode st (htmlEscape (joinNl
          (rest.takeWhile (fun l => ¬ "```".data.isPrefixOf l)))))
        ((rest.drop (rest.takeWhile (fun l => ¬ "```".data.isPrefixOf l)).length).drop 1) := by
  simp only [parseLinesFrom, List.length_cons, parseFuel, h1, h2, h3, h4, h5, h6, h7,
    Bool.false_eq_true, ite_true, ite_false, if_pos, if_neg, not_false_iff]
  apply parseFuel_congr
  · simp only [List.length_drop]; omega
  · exact Nat.le_refl _

theorem parseLines_desc (st : ParseState) (line : List Char) (rest : List (List Char))
    (h1 : isH2Open line = false)
    (h2 : ("### ".data.isPrefixOf line && curSecTruthy st) = false)
    (h3 : (pstrip line).isEmpty = false)
    (h4 : st.cur.isNone = false)
    (h5 : "**Rails Docs:**".data.isPrefixOf line = false)
    (h6 : "**Source:**".data.isPrefixOf line = false)
    (h7 : "```".data.isPrefixOf line = false) :
    parseLinesFrom st (line :: rest) = parseLinesFrom (applyDesc st line) rest := by
  simp only [parseLinesFrom, List.length_cons, parseFuel, h1, h2, h3, h4, h5, h6, h7,
    Bool.false_eq_true, ite_true, ite_false, if_pos, if_neg, not_false_iff]

end RubySnippets

namespace RubySnippets

theorem isPrefixOf_append_self (l t : List Char) : l.isPrefixOf (l ++ t) = true :=
  isPrefixOf_iff_of_lists.mpr (List.prefix_append l t)

theorem isPrefixOf_append_cancel (p q r : List Char) :
    (p ++ q).isPrefixOf (p ++ r) = q.isPrefixOf r := by
  induction p with
  | nil => rfl
  | cons c cs ih => simp [List.isPrefixOf, ih]

theorem pstrip_cons_isEmpty_false {c : Char} (t : List Char) (hc : isWsChar c = false) :
    (pstrip (c :: t)).isEmpty = false := by
  simp only [pstrip, List.dropWhile_cons, hc, Bool.false_eq_true, ite_false, if_neg,
    not_false_iff]
  refine Bool.eq_false_iff.mpr fun hemp => ?_
  rw [List.isEmpty_iff] at hemp
  have h1 : ((c :: t).reverse.dropWhile isWsChar) = [] := by
    have := congrArg List.reverse hemp
    simpa using this
  have h2 := List.dropWhile_eq_nil_iff.mp h1 c (by simp)
  simp [hc] at h2

/-! ### Claim C9 -/

/-- C9: an H3 pattern-header line met before any H2 has opened a section
creates no pattern and is skipped with the state unchanged; consequently an
input with no section-opening H2 line parses to the empty dictionary — every
pattern in the output lives under a section opened by a preceding H2. -/
theorem h3_without_section_ignored :
    (∀ (x : List Char) (rest : List (List Char)),
      parseLinesFrom initState (("### ".data ++ x) :: rest) =
        parseLinesFrom initState rest) ∧
    (∀ L : List (List Char), (∀ l ∈ L, isH2Open l = false) →
      parsePatternsLines L = []) := by
  constructor
  · intro x rest
    exact parseLines_nopat initState _ rest rfl
      (by simp [isPrefixOf_append_self, curSecTruthy, initState])
      (pstrip_cons_isEmpty_false _ (by decide)) rfl
  · intro L hL
    suffices h : parseLinesFrom initState L = initState by
      simp only [parsePatternsLines]
      rw [h]
      rfl
    induction L with
    | nil => rfl
    | cons l L' ih =>
      have hl := hL l (List.mem_cons_self l L')
      have hrest : ∀ x ∈ L', isH2Open x = false :=
        fun x hx => hL x (List.mem_cons_of_mem l hx)
      have h2 : ("### ".data.isPrefixOf l && curSecTruthy initState) = false := by
        simp [curSecTruthy, initState]
      by_cases hb : (pstrip l).isEmpty = true
      · rw [parseLines_blank _ _ _ hl h2 hb]
        exact ih hrest
      · rw [parseLines_nopat _ _ _ hl h2 (Bool.eq_false_iff.mpr hb) rfl]
        exact ih hrest

/-- Closed witness for `h3_without_section_ignored`: a document consisting of
an H3 header and a description line (no H2 anywhere) parses to no sections. -/
theorem h3_without_section_ignored_witness :
    parsePatternsLines ["### Pat".data, "some text".data] = [] :=
  h3_without_section_ignored.2 _ (by decide)

end RubySnippets

namespace RubySnippets

theorem applyLink_secs (st : ParseState) (line : List Char) (b : Bool) :
    (applyLink st line b).secs = st.secs := by
  simp only [applyLink]
  split <;> rfl

theorem applyDesc_secs (st : ParseState) (line : List Char) :
    (applyDesc st line).secs = st.secs := by
  simp only [applyDesc]
  split <;> rfl

theorem setCode_secs (st : ParseState) (c : List Char) :
    (setCode st c).secs = st.secs := rfl

theorem dictSet_keys_sub {m : List (List Char × List Nat)} {k : List Char}
    {v : List Nat} {x : List Char} (hx : x ∈ (dictSet m k v).map Prod.fst) :
    x ∈ m.map Prod.fst ∨ x = k := by
  induction m with
  | nil =>
    right
    simp only [dictSet, List.map_cons, List.map_nil, List.mem_singleton] at hx
    exact hx
  | cons e rest ih =>
    obtain ⟨k', v'⟩ := e
    by_cases h : k' = k
    · subst h
      simp only [dictSet, ite_true, if_pos] at hx
      simp only [List.map_cons, List.mem_cons] at hx ⊢
      tauto
    · simp only [dictSet, h, ite_false, if_neg, not_false_iff] at hx
      simp only [List.map_cons, List.mem_cons] at hx ⊢
      rcases hx with hx | hx
      · tauto
      · rcases ih hx with h' | h' <;> tauto

theorem dictAppendIdx_keys (m : List (List Char × List Nat)) (k : List Char) (i : Nat) :
    (dictAppendIdx m k i).map Prod.fst = m.map Prod.fst := by
  induction m with
  | nil => rfl
  | cons e rest ih =>
    obtain ⟨k', v'⟩ := e
    by_cases h : k' = k
    · simp [dictAppendIdx, h]
    · simp [dictAppendIdx, h, ih]

theorem filterMap_mem_of_sublist {l₁ l₂ : List (List Char)} {x : List Char}
    (hs : List.Sublist l₁ l₂)
    (hx : x ∈ (l₁.filter isH2Open).map (fun l => pstrip (l.drop 3))) :
    x ∈ (l₂.filter isH2Open).map (fun l => pstrip (l.drop 3)) :=
  ((hs.filter isH2Open).map (fun l => pstrip (l.drop 3))).mem hx

theorem secsKeys_invariant : ∀ (f : Nat) (st : ParseState) (L : List (List Char)),
    L.length ≤ f →
    ∀ x ∈ (parseFuel f st L).secs.map Prod.fst,
      x ∈ st.secs.map Prod.fst ∨
        x ∈ (L.filter isH2Open).map (fun l => pstrip (l.drop 3)) := by
  intro f
  induction f with
  | zero =>
    intro st L hf x hx
    have : L = [] := List.length_eq_zero.mp (Nat.le_zero.mp hf)
    subst this
    left
    simpa using hx
  | succ f ih =>
    intro st L hf x hx
    cases L with
    | nil => left; simpa using hx
    | cons line rest =>
      have hr : rest.length ≤ f := by simp only [List.length_cons] at hf; omega
      simp only [parseFuel] at hx
      split at hx
      · -- H2 branch
        rename_i hcond
        have hcond' : isH2Open line = true := hcond
        rcases ih _ _ hr x hx with h | h
        · have hk : x ∈ (dictSet st.secs (pstrip (line.drop 3)) []).map Prod.fst := h
          rcases dictSet_keys_sub hk with h' | h'
          · left; exact h'
          · right
            subst h'
            simp [List.filter_cons, hcond']
        · right
          exact filterMap_mem_of_sublist (List.sublist_cons_self line rest) h
      · split at hx
        · -- H3 branch
          rename_i hno hcond
          have hno' : isH2Open line = false := Bool.eq_false_iff.mpr hno
          rcases ih _ _ hr x hx with h | h
          · left
            have hk : x ∈ (dictAppendIdx st.secs (st.curSec.getD []) st.heap.length).map
                Prod.fst := h
            rwa [dictAppendIdx_keys] at hk
          · right
            exact filterMap_mem_of_sublist (List.sublist_cons_self line rest) h
        · split at hx
          · rcases ih _ _ hr x hx with h | h
            · left; exact h
            · right; exact filterMap_mem_of_sublist (List.sublist_cons_self line rest) h
          · split at hx
            · rcases ih _ _ hr x hx with h | h
              · left; exact h
              · right
                exact filterMap_mem_of_sublist (List.sublist_cons_self line rest) h
            · split at hx
              · rcases ih _ _ hr x hx with h | h
                · left; rwa [applyLink_secs] at h
                · right
                  exact filterMap_mem_of_sublist (List.sublist_cons_self line rest) h
              · split at hx
                · rcases ih _ _ hr x hx with h | h
                  · left; rwa [applyLink_secs] at h
                  · right
                    exact filterMap_mem_of_sublist (List.sublist_cons_self line rest) h
                · split at hx
                  · -- fence branch
                    have hr2 : (List.drop 1 (List.drop (rest.takeWhile
                        (fun l => ¬ "```".data.isPrefixOf l)).length rest)).length ≤ f := by
                      simp only [List.length_drop]
                      omega
                    rcases ih _ _ hr2 x hx with h | h
                    · left; rwa [setCode_secs] at h
                    · right
                      refine filterMap_mem_of_sublist ?_ h
                      refine List.Sublist.trans ?_ (List.sublist_cons_self line rest)
                      exact ((List.drop_suffix 1 _).sublist).trans
                        ((List.drop_suffix _ rest).sublist)
                  · rcases ih _ _ hr x hx with h | h
                    · left; rwa [applyDesc_secs] at h
                    · right
                      exact filterMap_mem_of_sublist (List.sublist_cons_self line rest) h

end RubySnippets

namespace RubySnippets

/-! ### Claim C10 -/

theorem isH2Open_table (suffix : List Char) :
    isH2Open ("## Table".data ++ suffix) = false := by
  have h2 : "## Table".data.isPrefixOf ("## Table".data ++ suffix) = true :=
    isPrefixOf_append_self _ _
  simp [isH2Open, h2]

/-- C10: an H2 line whose text begins with `## Table` opens no new section:
it fails the section-opening test, every section name in the output is the
stripped text of some section-opening H2 line of the input, such a line is
skipped without effect when no pattern is open (so following patterns are
dropped when no section is open), and a pattern under such a heading attaches
to the previously opened section. -/
theorem table_heading_opens_no_section :
    (∀ suffix : List Char, isH2Open ("## Table".data ++ suffix) = false) ∧
    (∀ L : List (List Char), ∀ x ∈ (parsePatternsLines L).map Prod.fst,
      x ∈ (L.filter isH2Open).map (fun l => pstrip (l.drop 3))) ∧
    (∀ (suffix : List Char) (rest : List (List Char)),
      parseLinesFrom initState (("## Table".data ++ suffix) :: rest) =
        parseLinesFrom initState rest) ∧
    (∀ (A x suffix : List Char), "Table".data.isPrefixOf A = false →
      (pstrip A).isEmpty = false →
      parsePatternsLines
        [("## ".data ++ A), ("## Table".data ++ suffix), ("### ".data ++ x)] =
        [(pstrip A, [mkNewPattern (pstrip x) (pstrip A)])]) := by
  refine ⟨fun suffix => isH2Open_table suffix, fun L x hx => ?_,
    fun suffix rest => ?_, fun A x suffix hT hA => ?_⟩
  · have hx' : x ∈ (parseLinesFrom initState L).secs.map Prod.fst := by
      simp only [parsePatternsLines, assemble, List.map_map] at hx
      simpa using hx
    rcases secsKeys_invariant L.length initState L (Nat.le_refl _) x hx' with h | h
    · simp [initState] at h
    · exact h
  · exact parseLines_nopat initState _ rest (isH2Open_table suffix)
      (by simp [curSecTruthy, initState])
      (pstrip_cons_isEmpty_false _ (by decide)) rfl
  · have h1self : "## ".data.isPrefixOf ("## ".data ++ A) = true :=
      isPrefixOf_append_self _ _
    have h2tbl : "## Table".data.isPrefixOf ("## ".data ++ A) = false := by
      have hc := isPrefixOf_append_cancel "## ".data "Table".data A
      rw [show (("## ".data ++ "Table".data : List Char)) = "## Table".data from rfl] at hc
      rw [hc, hT]
    have hopen : isH2Open ("## ".data ++ A) = true := by
      unfold isH2Open
      rw [h1self, h2tbl]
      decide
    have hdropA : ("## ".data ++ A).drop 3 = A := rfl
    have hsec : curSecTruthy (stH2 initState ("## ".data ++ A)) = true := by
      simp only [curSecTruthy, stH2, initState]
      rw [hdropA]
      simp [hA]
    have hcond3 : ("### ".data.isPrefixOf ("### ".data ++ x) &&
        curSecTruthy (stH2 initState ("## ".data ++ A))) = true := by
      rw [isPrefixOf_append_self, Bool.true_and]
      exact hsec
    have h1h3 : isH2Open ("### ".data ++ x) = false := by
      simp [isH2Open, List.isPrefixOf]
    have hnop2 : ("### ".data.isPrefixOf ("## Table".data ++ suffix) &&
        curSecTruthy (stH2 initState ("## ".data ++ A))) = false := by
      simp [List.isPrefixOf]
    show assemble (parseLinesFrom initState _) = _
    rw [parseLines_h2 _ _ _ hopen,
      parseLines_nopat (stH2 initState ("## ".data ++ A)) ("## Table".data ++ suffix)
        [("### ".data ++ x)] (isH2Open_table suffix) hnop2
        (pstrip_cons_isEmpty_false _ (by decide)) rfl,
      parseLines_h3 (stH2 initState ("## ".data ++ A)) ("### ".data ++ x) []
        h1h3 hcond3, parseLines_nil]
    simp [stH2, stH3, initState, dictSet, dictAppendIdx, assemble, Option.getD,
      List.getD]

/-- Closed witness for `table_heading_opens_no_section` at concrete input:
a pattern under a `## Table of Contents` heading attaches to the previously
opened `Models` section. -/
theorem table_heading_opens_no_section_witness :
    parsePatternsLines
      [("## ".data ++ "Models".data),
       ("## Table".data ++ " of Contents".data),
       ("### ".data ++ "Soft Delete".data)] =
      [(pstrip "Models".data,
        [mkNewPattern (pstrip "Soft Delete".data) (pstrip "Models".data)])] :=
  table_heading_opens_no_section.2.2.2 "Models".data "Soft Delete".data
    " of Contents".data (by decide) (by decide)

end RubySnippets
namespace RubySnippets

/-! ### Claim C1: toolkit lemmas -/

theorem isPrefixOf_trans {a b c : List Char} (h1 : a.isPrefixOf b = true)
    (h2 : b.isPrefixOf c = true) : a.isPrefixOf c = true :=
  isPrefixOf_iff_of_lists.mpr
    ((isPrefixOf_iff_of_lists.mp h1).trans (isPrefixOf_iff_of_lists.mp h2))

theorem not_pref_of_pref {a b l : List Char} (hab : a.isPrefixOf b = true)
    (h : a.isPrefixOf l = false) : b.isPrefixOf l = false := by
  cases hbl : b.isPrefixOf l with
  | false => rfl
  | true => rw [isPrefixOf_trans hab hbl] at h; cases h

theorem isEmpty_false_of_ne_nil {l : List Char} (h : l ≠ []) : l.isEmpty = false := by
  cases l with
  | nil => exact absurd rfl h
  | cons c t => rfl

theorem isH2Open_false_of_not_pref {l : List Char}
    (h : "## ".data.isPrefixOf l = false) : isH2Open l = false := by
  simp [isH2Open, h]

theorem isPrefixOf_head_ne {a : Char} (b : List Char) {c : Char} (t : List Char)
    (h : (a == c) = false) : (a :: b).isPrefixOf (c :: t) = false := by
  simp [List.isPrefixOf, h]

theorem takeWhile_append_stop {α : Type} {p : α → Bool} :
    ∀ (a : List α) {c : α} (b : List α), (∀ x ∈ a, p x = true) → p c = false →
    (a ++ c :: b).takeWhile p = a := by
  intro a
  induction a with
  | nil => intro c b _ hc; simp [List.takeWhile_cons, hc]
  | cons x a ih =>
    intro c b ha hc
    have hx : p x = true := ha x (List.mem_cons_self x a)
    simp [List.takeWhile_cons, hx, ih _ (fun y hy => ha y (List.mem_cons_of_mem x hy)) hc]

theorem joinNl_splitNl : ∀ (l : List Char), joinNl (splitNl l) = l := by
  intro l
  induction l with
  | nil => rfl
  | cons c cs ih =>
    by_cases h : c = '\n'
    · subst h
      rcases hs : splitNl cs with _ | ⟨p, ps⟩
      · exact absurd hs (splitNl_ne_nil cs)
      · rw [hs] at ih
        rw [show splitNl ('\n' :: cs) = [] :: splitNl cs from by simp [splitNl], hs]
        show ([] : List Char) ++ '\n' :: joinNl (p :: ps) = '\n' :: cs
        rw [ih]
        rfl
    · rcases hs : splitNl cs with _ | ⟨p, ps⟩
      · exact absurd hs (splitNl_ne_nil cs)
      · simp only [splitNl, if_neg h, hs]
        rw [hs] at ih
        cases ps with
        | nil =>
          show c :: p = c :: cs
          rw [show joinNl [p] = p from rfl] at ih
          rw [ih]
        | cons q qs =>
          show (c :: p) ++ '\n' :: joinNl (q :: qs) = c :: cs
          rw [List.cons_append]
          rw [show p ++ '\n' :: joinNl (q :: qs) = joinNl (p :: q :: qs) from rfl]
          rw [ih]

theorem digitChar_ne_nl (n : Nat) : Nat.digitChar n ≠ '\n' := by
  rcases Nat.lt_or_ge n 16 with h | h
  · interval_cases n <;> decide
  · unfold Nat.digitChar
    repeat rw [if_neg (by omega)]
    decide

theorem toDigitsCore_no_nl (b : Nat) : ∀ (f n : Nat) (acc : List Char),
    '\n' ∉ acc → '\n' ∉ Nat.toDigitsCore b f n acc := by
  intro f
  induction f with
  | zero => intro n acc hacc; simpa [Nat.toDigitsCore] using hacc
  | succ f ih =>
    intro n acc hacc
    rw [Nat.toDigitsCore]
    have hd : '\n' ∉ ((n % b).digitChar :: acc) := by
      intro hmem
      rcases List.mem_cons.mp hmem with h | h
      · exact digitChar_ne_nl _ h.symm
      · exact hacc h
    split
    · exact hd
    · exact ih _ _ hd

theorem repr_no_nl (n : Nat) : '\n' ∉ (Nat.repr n).data :=
  toDigitsCore_no_nl 10 (n + 1) n [] (by simp)

theorem flatMap_splitNl_of_nlfree : ∀ {L : List (List Char)},
    (∀ l ∈ L, '\n' ∉ l) → L.flatMap splitNl = L := by
  intro L
  induction L with
  | nil => intro _; rfl
  | cons l L ih =>
    intro h
    rw [List.flatMap_cons, splitNl_nlfree (h l (List.mem_cons_self l L)),
      ih (fun x hx => h x (List.mem_cons_of_mem l hx))]
    rfl

theorem getD_concat (h : List MdPattern) (q d : MdPattern) :
    (h ++ [q]).getD h.length d = q := by
  simp [List.getD, List.getElem?_concat_length]

theorem getD_append_cons (A : List MdPattern) (x : MdPattern) (B : List MdPattern)
    (d : MdPattern) : (A ++ x :: B).getD A.length d = x := by
  simp [List.getD, List.getElem?_append_right (Nat.le_refl A.length)]

theorem heapModify_concat (h : List MdPattern) (q : MdPattern) (f : MdPattern → MdPattern) :
    heapModify (h ++ [q]) h.length f = h ++ [f q] := by
  simp [heapModify, List.getElem?_concat_length, List.set_append]

theorem dictSet_fresh : ∀ (D : List (List Char × List Nat)) (k : List Char) (v : List Nat),
    k ∉ D.map Prod.fst → dictSet D k v = D ++ [(k, v)] := by
  intro D
  induction D with
  | nil => intro k v _; rfl
  | cons e D ih =>
    intro k v hk
    simp only [List.map_cons, List.mem_cons, not_or] at hk
    rw [show dictSet (e :: D) k v =
        if e.1 = k then (e.1, v) :: D else (e.1, e.2) :: dictSet D k v from rfl]
    rw [if_neg (fun hc => hk.1 hc.symm), ih k v hk.2]
    rfl

theorem dictAppendIdx_concat : ∀ (D : List (List Char × List Nat)) (k : List Char)
    (idxs : List Nat) (i : Nat), k ∉ D.map Prod.fst →
    dictAppendIdx (D ++ [(k, idxs)]) k i = D ++ [(k, idxs ++ [i])] := by
  intro D
  induction D with
  | nil => intro k idxs i _; simp [dictAppendIdx]
  | cons e D ih =>
    intro k idxs i hk
    simp only [List.map_cons, List.mem_cons, not_or] at hk
    rw [List.cons_append,
      show dictAppendIdx ((e.1, e.2) :: (D ++ [(k, idxs)])) k i =
        if e.1 = k then (e.1, e.2 ++ [i]) :: (D ++ [(k, idxs)])
        else (e.1, e.2) :: dictAppendIdx (D ++ [(k, idxs)]) k i from rfl]
    rw [if_neg (fun hc => hk.1 hc.symm), ih k idxs i hk.2]
    rfl

theorem linkMdAt_ne_bracket {c : Char} (h : ¬ c = '[') (cs : List Char) :
    linkMdAt (c :: cs) = none := by
  unfold linkMdAt
  split
  · next rest heq =>
    injection heq with h1 _
    exact absurd h1 h
  · rfl

theorem parseLines_blankLine (st : ParseState) (rest : List (List Char)) :
    parseLinesFrom st ([] :: rest) = parseLinesFrom st rest :=
  parseLines_blank st [] rest (by decide)
    (by rw [show "### ".data.isPrefixOf ([] : List Char) = false from by decide]
        exact Bool.false_and _)
    (by decide)

theorem parseLines_inert : ∀ (L : List (List Char)) (T : List (List Char)),
    (∀ l ∈ L, isH2Open l = false) →
    parseLinesFrom initState (L ++ T) = parseLinesFrom initState T := by
  intro L
  induction L with
  | nil => intro T _; rfl
  | cons l L ih =>
    intro T hL
    have h1 : isH2Open l = false := hL l (List.mem_cons_self l L)
    have h2 : ("### ".data.isPrefixOf l && curSecTruthy initState) = false := by
      rw [show curSecTruthy initState = false from rfl]
      exact Bool.and_false _
    have htail : ∀ x ∈ L, isH2Open x = false :=
      fun x hx => hL x (List.mem_cons_of_mem l hx)
    rw [List.cons_append]
    cases he : (pstrip l).isEmpty with
    | true => rw [parseLines_blank initState l (L ++ T) h1 h2 he, ih T htail]
    | false => rw [parseLines_nopat initState l (L ++ T) h1 h2 he rfl, ih T htail]

end RubySnippets
namespace RubySnippets

/-! ### Claim C1: the expected round-trip image (spec-modelled) -/

/-- Spec-modelled: the record the spec expects `parse_patterns` to rebuild for
one rendered pattern — title, description, docs link and source link exactly
(links in the parser's anchor representation), and the code HTML-escaped. -/
def expectedPat (secName : List Char) (p : HtmlPattern) : MdPattern :=
  { name := p.title,
    description := p.description.getD [],
    rails_docs := match p.docs with | some du => mkAnchor du.1 du.2 | none => [],
    source := match p.source with | some su => mkAnchor su.1 su.2 | none => [],
    code := match p.code with | some c => htmlEscape c | none => [],
    category := (categorize_pattern (String.mk secName)).data }

/-- Spec-modelled: the claimed value of `parse_patterns (generate_markdown S)`. -/
def roundTripView (S : List HtmlSection) : List (List Char × List MdPattern) :=
  S.map (fun s => (s.section_name, s.patterns.map (expectedPat s.section_name)))

/-- Well-formedness of an optional description: newline-free, already
stripped, non-empty, and not starting with a marker the parser would
intercept. -/
def rtOkDesc : Option (List Char) → Bool
  | none => true
  | some d => decide ('\n' ∉ d) && decide (pstrip d = d) && decide (d ≠ []) &&
      !("**".data.isPrefixOf d) && !("```".data.isPrefixOf d) &&
      !("## ".data.isPrefixOf d) && !("### ".data.isPrefixOf d)

/-- Well-formedness of an optional `(url, label)` link pair: the label has no
`]`, the URL no `)`, both non-empty and newline-free. -/
def rtOkLink : Option (List Char × List Char) → Bool
  | none => true
  | some du => decide ('\n' ∉ du.1) && decide (')' ∉ du.1) && decide (du.1 ≠ []) &&
      decide ('\n' ∉ du.2) && decide (']' ∉ du.2) && decide (du.2 ≠ [])

/-- Well-formedness of an optional code block: no line of it opens a fence. -/
def rtOkCode : Option (List Char) → Bool
  | none => true
  | some c => (splitNl c).all (fun l => !("```".data.isPrefixOf l))

def rtOkPat (p : HtmlPattern) : Bool :=
  decide ('\n' ∉ p.title) && decide (pstrip p.title = p.title) &&
  rtOkDesc p.description && rtOkLink p.docs && rtOkLink p.source && rtOkCode p.code

def rtOkSec (s : HtmlSection) : Bool :=
  decide ('\n' ∉ s.section_name) && decide (pstrip s.section_name = s.section_name) &&
  decide (s.section_name ≠ []) && !("Table".data.isPrefixOf s.section_name) &&
  decide ('\n' ∉ s.section_id) && s.patterns.all rtOkPat

/-- Well-formedness of a section sequence: every section and pattern is
well-formed and the section names are pairwise distinct. -/
def rtOkSections (S : List HtmlSection) : Bool :=
  S.all rtOkSec && decide ((S.map HtmlSection.section_name).Nodup)

/-- The running index ranges the parser's sections dictionary accumulates. -/
def expSecs : Nat → List HtmlSection → List (List Char × List Nat)
  | _, [] => []
  | b, s :: S => (s.section_name, List.range' b s.patterns.length) ::
      expSecs (b + s.patterns.length) S

def descSeg : Option (List Char) → List (List Char)
  | some d => [d, []]
  | none => []

def docsSeg : Option (List Char × List Char) → List (List Char)
  | some du => ["**Rails Docs:** [".data ++ du.2 ++ "](".data ++ du.1 ++ ")".data, []]
  | none => []

def srcSeg : Option (List Char × List Char) → List (List Char)
  | some su => ["**Source:** [".data ++ su.2 ++ "](".data ++ su.1 ++ ")".data, []]
  | none => []

def codeSeg : Option (List Char) → List (List Char)
  | some c => ["```ruby".data, c, "```".data, []]
  | none => []

theorem mdPatternLines_eq (p : HtmlPattern) :
    mdPatternLines p = ["### ".data ++ p.title, []] ++ descSeg p.description ++
      docsSeg p.docs ++ srcSeg p.source ++ codeSeg p.code := by
  rcases p with ⟨t, od, ou, os, oc⟩
  cases od <;> cases ou <;> cases os <;> cases oc <;> rfl

/-! ### Claim C1: recognising the rendered link lines -/

theorem linkMdAt_at_bracket (lab url post : List Char) (hlab : ']' ∉ lab)
    (hlabne : lab ≠ []) (hurl : ')' ∉ url) (hurlne : url ≠ []) :
    linkMdAt ('[' :: (lab ++ ']' :: '(' :: (url ++ ')' :: post))) = some (lab, url) := by
  have ht : (lab ++ ']' :: '(' :: (url ++ ')' :: post)).takeWhile
      (fun c => ¬ c = ']') = lab :=
    takeWhile_append_stop lab _
      (fun x hx => by
        simp only [decide_eq_true_eq]
        intro h
        exact hlab (h ▸ hx)) (by decide)
  have hu : (url ++ ')' :: post).takeWhile (fun c => ¬ c = ')') = url :=
    takeWhile_append_stop url _
      (fun x hx => by
        simp only [decide_eq_true_eq]
        intro h
        exact hurl (h ▸ hx)) (by decide)
  simp only [linkMdAt, ht]
  rw [if_neg hlabne, List.drop_left]
  rw [show ((']' :: '(' :: (url ++ ')' :: post)) : List Char) =
      "](".data ++ (url ++ ')' :: post) from rfl]
  rw [isPrefixOf_append_self, if_pos rfl]
  rw [show ("](".data ++ (url ++ ')' :: post)).drop 2 = url ++ ')' :: post from rfl]
  rw [hu, if_neg hurlne, List.drop_left]
  rw [show ((')' :: post) : List Char) = ")".data ++ post from rfl]
  rw [isPrefixOf_append_self, if_pos rfl]

theorem scanFor_link : ∀ (pre : List Char) (lab url post : List Char),
    '[' ∉ pre → ']' ∉ lab → lab ≠ [] → ')' ∉ url → url ≠ [] →
    scanFor linkMdAt (pre ++ '[' :: (lab ++ ']' :: '(' :: (url ++ ')' :: post))) =
      some (lab, url) := by
  intro pre
  induction pre with
  | nil =>
    intro lab url post _ hlab hlabne hurl hurlne
    have hsome := linkMdAt_at_bracket lab url post hlab hlabne hurl hurlne
    rw [List.nil_append]
    simp only [scanFor, hsome]
  | cons c pre ih =>
    intro lab url post hpre hlab hlabne hurl hurlne
    simp only [List.mem_cons, not_or] at hpre
    have hnone := linkMdAt_ne_bracket (fun hc => hpre.1 hc.symm)
      (pre ++ '[' :: (lab ++ ']' :: '(' :: (url ++ ')' :: post)))
    rw [List.cons_append]
    simp only [scanFor, hnone]
    exact ih lab url post hpre.2 hlab hlabne hurl hurlne

end RubySnippets
namespace RubySnippets

theorem nlfree_cons {c : Char} {t : List Char} (hc : c ≠ '\n') (ht : '\n' ∉ t) :
    '\n' ∉ c :: t := by
  intro h
  rcases List.mem_cons.mp h with h | h
  · exact hc h.symm
  · exact ht h

theorem applyDesc_at (h0 : List MdPattern) (q : MdPattern)
    (D : List (List Char × List Nat)) (cso : Option (List Char)) (d : List Char)
    (hq : q.description = []) (hd : "**".data.isPrefixOf d = false) :
    applyDesc ⟨h0 ++ [q], D, cso, some h0.length⟩ d =
      ⟨h0 ++ [{ q with description := pstrip d }], D, cso, some h0.length⟩ := by
  simp [applyDesc, curIdx, getD_concat, hq, hd, heapModify_concat]

theorem applyLink_at_docs (h0 : List MdPattern) (q : MdPattern)
    (D : List (List Char × List Nat)) (cso : Option (List Char)) (line t u : List Char)
    (hscan : scanFor linkMdAt line = some (t, u)) :
    applyLink ⟨h0 ++ [q], D, cso, some h0.length⟩ line true =
      ⟨h0 ++ [{ q with rails_docs := mkAnchor u t }], D, cso, some h0.length⟩ := by
  simp [applyLink, hscan, curIdx, heapModify_concat]

theorem applyLink_at_src (h0 : List MdPattern) (q : MdPattern)
    (D : List (List Char × List Nat)) (cso : Option (List Char)) (line t u : List Char)
    (hscan : scanFor linkMdAt line = some (t, u)) :
    applyLink ⟨h0 ++ [q], D, cso, some h0.length⟩ line false =
      ⟨h0 ++ [{ q with source := mkAnchor u t }], D, cso, some h0.length⟩ := by
  simp [applyLink, hscan, curIdx, heapModify_concat]

theorem setCode_at (h0 : List MdPattern) (q : MdPattern)
    (D : List (List Char × List Nat)) (cso : Option (List Char)) (code : List Char) :
    setCode ⟨h0 ++ [q], D, cso, some h0.length⟩ code =
      ⟨h0 ++ [{ q with code := code }], D, cso, some h0.length⟩ := by
  simp [setCode, curIdx, heapModify_concat]

theorem parse_descSeg (h0 : List MdPattern) (q : MdPattern)
    (D : List (List Char × List Nat)) (cso : Option (List Char))
    (od : Option (List Char)) (T : List (List Char))
    (hod : rtOkDesc od = true) (hq : q.description = []) :
    parseLinesFrom ⟨h0 ++ [q], D, cso, some h0.length⟩
        ((descSeg od).flatMap splitNl ++ T) =
      parseLinesFrom ⟨h0 ++ [{ q with description := od.getD [] }], D, cso,
        some h0.length⟩ T := by
  cases od with
  | none =>
    have hqq : ({ q with description := (none : Option (List Char)).getD [] } : MdPattern)
        = q := by
      rcases q with ⟨n1, d1, r1, s1, c1, g1⟩
      dsimp only at hq ⊢
      rw [hq]
      rfl
    rw [hqq]
    rfl
  | some d =>
    simp only [rtOkDesc, Bool.and_eq_true, Bool.not_eq_true', decide_eq_true_eq] at hod
    obtain ⟨⟨⟨⟨⟨⟨hnl, hstrip⟩, hne⟩, hbb⟩, hfence⟩, hh2⟩, hh3⟩ := hod
    have hflat : (descSeg (some d)).flatMap splitNl ++ T = d :: [] :: T := by
      simp [descSeg, splitNl_nlfree hnl, splitNl]
    rw [hflat]
    have hd1 : isH2Open d = false := isH2Open_false_of_not_pref hh2
    have hd2 : ("### ".data.isPrefixOf d &&
        curSecTruthy ⟨h0 ++ [q], D, cso, some h0.length⟩) = false := by
      rw [hh3]; exact Bool.false_and _
    have hd3 : (pstrip d).isEmpty = false := by
      rw [hstrip]; exact isEmpty_false_of_ne_nil hne
    have hd5 : "**Rails Docs:**".data.isPrefixOf d = false :=
      not_pref_of_pref (by decide) hbb
    have hd6 : "**Source:**".data.isPrefixOf d = false :=
      not_pref_of_pref (by decide) hbb
    rw [parseLines_desc _ d ([] :: T) hd1 hd2 hd3 rfl hd5 hd6 hfence,
      applyDesc_at h0 q D cso d hq hbb, hstrip, parseLines_blankLine]
    rfl

theorem parse_docsSeg (h0 : List MdPattern) (q : MdPattern)
    (D : List (List Char × List Nat)) (cso : Option (List Char))
    (ou : Option (List Char × List Char)) (T : List (List Char))
    (hok : rtOkLink ou = true) :
    parseLinesFrom ⟨h0 ++ [q], D, cso, some h0.length⟩
        ((docsSeg ou).flatMap splitNl ++ T) =
      parseLinesFrom ⟨h0 ++ [match ou with
          | some du => { q with rails_docs := mkAnchor du.1 du.2 }
          | none => q], D, cso, some h0.length⟩ T := by
  rcases ou with _ | ⟨url, lab⟩
  · rfl
  · simp only [rtOkLink, Bool.and_eq_true, decide_eq_true_eq] at hok
    obtain ⟨⟨⟨⟨⟨hunl, hup⟩, hune⟩, hlnl⟩, hlb⟩, hlne⟩ := hok
    have hnlL : '\n' ∉ ("**Rails Docs:** ".data ++
        '[' :: (lab ++ ']' :: '(' :: (url ++ ')' :: []))) :=
      nlfree_append (by decide) (nlfree_cons (by decide)
        (nlfree_append hlnl (nlfree_cons (by decide) (nlfree_cons (by decide)
          (nlfree_append hunl (by decide))))))
    have hseg : docsSeg (some (url, lab)) =
        [("**Rails Docs:** ".data ++ '[' :: (lab ++ ']' :: '(' :: (url ++ ')' :: []))),
          []] := by
      simp [docsSeg, List.append_assoc]
    have hflat : (docsSeg (some (url, lab))).flatMap splitNl ++ T =
        ("**Rails Docs:** ".data ++ '[' :: (lab ++ ']' :: '(' :: (url ++ ')' :: []))) ::
          [] :: T := by
      rw [hseg, List.flatMap_cons, List.flatMap_cons, List.flatMap_nil,
        splitNl_nlfree hnlL]
      rfl
    rw [hflat]
    have hd1 : isH2Open ("**Rails Docs:** ".data ++
        '[' :: (lab ++ ']' :: '(' :: (url ++ ')' :: []))) = false :=
      isH2Open_false_of_not_pref (isPrefixOf_head_ne _ _ (by decide))
    have hpx : "### ".data.isPrefixOf ("**Rails Docs:** ".data ++
        '[' :: (lab ++ ']' :: '(' :: (url ++ ')' :: []))) = false :=
      isPrefixOf_head_ne _ _ (by decide)
    have hd2 : ("### ".data.isPrefixOf ("**Rails Docs:** ".data ++
        '[' :: (lab ++ ']' :: '(' :: (url ++ ')' :: []))) &&
        curSecTruthy ⟨h0 ++ [q], D, cso, some h0.length⟩) = false := by
      rw [hpx]
      exact Bool.false_and _
    have hd3 : (pstrip ("**Rails Docs:** ".data ++
        '[' :: (lab ++ ']' :: '(' :: (url ++ ')' :: [])))).isEmpty = false :=
      pstrip_cons_isEmpty_false _ (by decide)
    have hd5 : "**Rails Docs:**".data.isPrefixOf ("**Rails Docs:** ".data ++
        '[' :: (lab ++ ']' :: '(' :: (url ++ ')' :: []))) = true :=
      show "**Rails Docs:**".data.isPrefixOf ("**Rails Docs:**".data ++
        (" [".data ++ (lab ++ ']' :: '(' :: (url ++ ')' :: [])))) = true from
        isPrefixOf_append_self _ _
    have hscan : scanFor linkMdAt ("**Rails Docs:** ".data ++
        '[' :: (lab ++ ']' :: '(' :: (url ++ ')' :: []))) = some (lab, url) :=
      scanFor_link "**Rails Docs:** ".data lab url [] (by decide) hlb hlne hup hune
    rw [parseLines_docs _ _ ([] :: T) hd1 hd2 hd3 rfl hd5,
      applyLink_at_docs h0 q D cso _ lab url hscan, parseLines_blankLine]

theorem parse_srcSeg (h0 : List MdPattern) (q : MdPattern)
    (D : List (List Char × List Nat)) (cso : Option (List Char))
    (ou : Option (List Char × List Char)) (T : List (List Char))
    (hok : rtOkLink ou = true) :
    parseLinesFrom ⟨h0 ++ [q], D, cso, some h0.length⟩
        ((srcSeg ou).flatMap splitNl ++ T) =
      parseLinesFrom ⟨h0 ++ [match ou with
          | some su => { q with source := mkAnchor su.1 su.2 }
          | none => q], D, cso, some h0.length⟩ T := by
  rcases ou with _ | ⟨url, lab⟩
  · rfl
  · simp only [rtOkLink, Bool.and_eq_true, decide_eq_true_eq] at hok
    obtain ⟨⟨⟨⟨⟨hunl, hup⟩, hune⟩, hlnl⟩, hlb⟩, hlne⟩ := hok
    have hnlL : '\n' ∉ ("**Source:** ".data ++
        '[' :: (lab ++ ']' :: '(' :: (url ++ ')' :: []))) :=
      nlfree_append (by decide) (nlfree_cons (by decide)
        (nlfree_append hlnl (nlfree_cons (by decide) (nlfree_cons (by decide)
          (nlfree_append hunl (by decide))))))
    have hseg : srcSeg (some (url, lab)) =
        [("**Source:** ".data ++ '[' :: (lab ++ ']' :: '(' :: (url ++ ')' :: []))),
          []] := by
      simp [srcSeg, List.append_assoc]
    have hflat : (srcSeg (some (url, lab))).flatMap splitNl ++ T =
        ("**Source:** ".data ++ '[' :: (lab ++ ']' :: '(' :: (url ++ ')' :: []))) ::
          [] :: T := by
      rw [hseg, List.flatMap_cons, List.flatMap_cons, List.flatMap_nil,
        splitNl_nlfree hnlL]
      rfl
    rw [hflat]
    have hd1 : isH2Open ("**Source:** ".data ++
        '[' :: (lab ++ ']' :: '(' :: (url ++ ')' :: []))) = false :=
      isH2Open_false_of_not_pref (isPrefixOf_head_ne _ _ (by decide))
    have hpx : "### ".data.isPrefixOf ("**Source:** ".data ++
        '[' :: (lab ++ ']' :: '(' :: (url ++ ')' :: []))) = false :=
      isPrefixOf_head_ne _ _ (by decide)
    have hd2 : ("### ".data.isPrefixOf ("**Source:** ".data ++
        '[' :: (lab ++ ']' :: '(' :: (url ++ ')' :: []))) &&
        curSecTruthy ⟨h0 ++ [q], D, cso, some h0.length⟩) = false := by
      rw [hpx]
      exact Bool.false_and _
    have hd3 : (pstrip ("**Source:** ".data ++
        '[' :: (lab ++ ']' :: '(' :: (url ++ ')' :: [])))).isEmpty = false :=
      pstrip_cons_isEmpty_false _ (by decide)
    have hd5 : "**Rails Docs:**".data.isPrefixOf ("**Source:** ".data ++
        '[' :: (lab ++ ']' :: '(' :: (url ++ ')' :: []))) = false := by
      simp [List.isPrefixOf]
    have hd6 : "**Source:**".data.isPrefixOf ("**Source:** ".data ++
        '[' :: (lab ++ ']' :: '(' :: (url ++ ')' :: []))) = true :=
      show "**Source:**".data.isPrefixOf ("**Source:**".data ++
        (" [".data ++ (lab ++ ']' :: '(' :: (url ++ ')' :: [])))) = true from
        isPrefixOf_append_self _ _
    have hscan : scanFor linkMdAt ("**Source:** ".data ++
        '[' :: (lab ++ ']' :: '(' :: (url ++ ')' :: []))) = some (lab, url) :=
      scanFor_link "**Source:** ".data lab url [] (by decide) hlb hlne hup hune
    rw [parseLines_source _ _ ([] :: T) hd1 hd2 hd3 rfl hd5 hd6,
      applyLink_at_src h0 q D cso _ lab url hscan, parseLines_blankLine]

end RubySnippets
namespace RubySnippets

theorem parse_codeSeg (h0 : List MdPattern) (q : MdPattern)
    (D : List (List Char × List Nat)) (cso : Option (List Char))
    (oc : Option (List Char)) (T : List (List Char))
    (hok : rtOkCode oc = true) :
    parseLinesFrom ⟨h0 ++ [q], D, cso, some h0.length⟩
        ((codeSeg oc).flatMap splitNl ++ T) =
      parseLinesFrom ⟨h0 ++ [match oc with
          | some c => { q with code := htmlEscape c }
          | none => q], D, cso, some h0.length⟩ T := by
  rcases oc with _ | c
  · rfl
  · have hflat : (codeSeg (some c)).flatMap splitNl ++ T =
        "```ruby".data :: (splitNl c ++ ("```".data :: [] :: T)) := by
      rw [show codeSeg (some c) = ["```ruby".data, c, "```".data, []] from rfl,
        List.flatMap_cons, List.flatMap_cons, List.flatMap_cons, List.flatMap_cons,
        List.flatMap_nil,
        show splitNl ("```ruby".data) = ["```ruby".data] from splitNl_nlfree (by decide),
        show splitNl ("```".data) = ["```".data] from splitNl_nlfree (by decide),
        show splitNl ([] : List Char) = [[]] from rfl]
      simp [List.append_assoc]
    rw [hflat]
    have h1 : isH2Open ("```ruby".data) = false := by decide
    have hpx : "### ".data.isPrefixOf ("```ruby".data) = false := by decide
    have h2 : ("### ".data.isPrefixOf ("```ruby".data) &&
        curSecTruthy ⟨h0 ++ [q], D, cso, some h0.length⟩) = false := by
      rw [hpx]; exact Bool.false_and _
    have h3 : (pstrip ("```ruby".data)).isEmpty = false := by decide
    have h5 : "**Rails Docs:**".data.isPrefixOf ("```ruby".data) = false := by decide
    have h6 : "**Source:**".data.isPrefixOf ("```ruby".data) = false := by decide
    have h7 : "```".data.isPrefixOf ("```ruby".data) = true := by decide
    rw [parseLines_fence _ _ (splitNl c ++ ("```".data :: [] :: T)) h1 h2 h3 rfl h5 h6 h7]
    simp only [rtOkCode, List.all_eq_true, Bool.not_eq_true'] at hok
    have htake : (splitNl c ++ ("```".data :: [] :: T)).takeWhile
        (fun l => ¬ "```".data.isPrefixOf l) = splitNl c :=
      takeWhile_append_stop (splitNl c) _
        (fun l hl => by
          have hx := hok l hl
          simp [hx]) (by decide)
    rw [htake, List.drop_left,
      show (("```".data :: [] :: T) : List (List Char)).drop 1 = [] :: T from rfl,
      joinNl_splitNl, setCode_at h0 q D cso (htmlEscape c), parseLines_blankLine]

theorem parse_h3_line (st : ParseState) (nm t : List Char) (rest : List (List Char))
    (hsec : st.curSec = some nm) (hnm : nm ≠ []) (ht : pstrip t = t) :
    parseLinesFrom st (("### ".data ++ t) :: rest) =
      parseLinesFrom ⟨st.heap ++ [mkNewPattern t nm],
        dictAppendIdx st.secs nm st.heap.length, st.curSec, some st.heap.length⟩ rest := by
  have h1 : isH2Open ("### ".data ++ t) = false := by
    simp [isH2Open, List.isPrefixOf]
  have hp : "### ".data.isPrefixOf ("### ".data ++ t) = true := isPrefixOf_append_self _ _
  have hcs : curSecTruthy st = true := by
    simp [curSecTruthy, hsec, isEmpty_false_of_ne_nil hnm]
  have h2 : ("### ".data.isPrefixOf ("### ".data ++ t) && curSecTruthy st) = true := by
    rw [hp, hcs]
    rfl
  rw [parseLines_h3 st _ rest h1 h2]
  have hdrop : ("### ".data ++ t).drop 4 = t := rfl
  have hst : stH3 st ("### ".data ++ t) =
      ⟨st.heap ++ [mkNewPattern t nm], dictAppendIdx st.secs nm st.heap.length,
        st.curSec, some st.heap.length⟩ := by
    simp [stH3, hdrop, ht, hsec]
  rw [hst]

theorem parse_patternBlock (st : ParseState) (nm : List Char) (p : HtmlPattern)
    (T : List (List Char))
    (hok : rtOkPat p = true) (hsec : st.curSec = some nm) (hnm : nm ≠ []) :
    parseLinesFrom st ((mdPatternLines p).flatMap splitNl ++ T) =
      parseLinesFrom ⟨st.heap ++ [expectedPat nm p],
        dictAppendIdx st.secs nm st.heap.length, st.curSec, some st.heap.length⟩ T := by
  simp only [rtOkPat, Bool.and_eq_true, decide_eq_true_eq] at hok
  obtain ⟨⟨⟨⟨⟨htnl, htstrip⟩, hdesc⟩, hdocs⟩, hsrc⟩, hcode⟩ := hok
  have hlines : (mdPatternLines p).flatMap splitNl ++ T =
      ("### ".data ++ p.title) :: [] ::
        ((descSeg p.description).flatMap splitNl ++
          ((docsSeg p.docs).flatMap splitNl ++
            ((srcSeg p.source).flatMap splitNl ++
              ((codeSeg p.code).flatMap splitNl ++ T)))) := by
    rw [mdPatternLines_eq, List.flatMap_append, List.flatMap_append, List.flatMap_append,
      List.flatMap_append,
      show (["### ".data ++ p.title, []] : List (List Char)).flatMap splitNl =
        ("### ".data ++ p.title) :: [[]] from by
        rw [List.flatMap_cons, List.flatMap_cons, List.flatMap_nil,
          splitNl_nlfree (nlfree_append (by decide) htnl)]
        rfl]
    simp [List.append_assoc]
  rw [hlines]
  rw [parse_h3_line st nm p.title _ hsec hnm htstrip, parseLines_blankLine,
    parse_descSeg st.heap (mkNewPattern p.title nm) _ st.curSec p.description _ hdesc rfl,
    parse_docsSeg st.heap _ _ st.curSec p.docs _ hdocs,
    parse_srcSeg st.heap _ _ st.curSec p.source _ hsrc,
    parse_codeSeg st.heap _ _ st.curSec p.code _ hcode]
  refine congrArg (fun z => parseLinesFrom ⟨st.heap ++ [z],
    dictAppendIdx st.secs nm st.heap.length, st.curSec, some st.heap.length⟩ T) ?_
  rcases p with ⟨t, od, ou, os, oc⟩
  cases od <;> cases ou <;> cases os <;> cases oc <;> rfl

end RubySnippets
namespace RubySnippets

theorem parse_h2_line (st : ParseState) (nm : List Char) (rest : List (List Char))
    (hstrip : pstrip nm = nm) (htab : "Table".data.isPrefixOf nm = false)
    (hfresh : nm ∉ st.secs.map Prod.fst) :
    parseLinesFrom st (("## ".data ++ nm) :: rest) =
      parseLinesFrom ⟨st.heap, st.secs ++ [(nm, [])], some nm, st.cur⟩ rest := by
  have h1self : "## ".data.isPrefixOf ("## ".data ++ nm) = true := isPrefixOf_append_self _ _
  have h2tbl : "## Table".data.isPrefixOf ("## ".data ++ nm) = false := by
    have hc := isPrefixOf_append_cancel "## ".data "Table".data nm
    rw [show (("## ".data ++ "Table".data : List Char)) = "## Table".data from rfl] at hc
    rw [hc, htab]
  have hopen : isH2Open ("## ".data ++ nm) = true := by
    unfold isH2Open
    rw [h1self, h2tbl]
    decide
  rw [parseLines_h2 st _ rest hopen]
  have hdrop : ("## ".data ++ nm).drop 3 = nm := rfl
  have hst : stH2 st ("## ".data ++ nm) =
      ⟨st.heap, st.secs ++ [(nm, [])], some nm, st.cur⟩ := by
    simp [stH2, hdrop, hstrip, dictSet_fresh st.secs nm [] hfresh]
  rw [hst]

theorem parse_patList : ∀ (ps : List HtmlPattern) (st : ParseState) (nm : List Char)
    (D : List (List Char × List Nat)) (idxs : List Nat) (T : List (List Char)),
    ps.all rtOkPat = true → st.curSec = some nm → nm ≠ [] →
    st.secs = D ++ [(nm, idxs)] → nm ∉ D.map Prod.fst →
    ∃ c, parseLinesFrom st
        (ps.flatMap (fun p => (mdPatternLines p).flatMap splitNl) ++ T) =
      parseLinesFrom ⟨st.heap ++ ps.map (expectedPat nm),
        D ++ [(nm, idxs ++ List.range' st.heap.length ps.length)], some nm, c⟩ T := by
  intro ps
  induction ps with
  | nil =>
    intro st nm D idxs T _ hsec hnm hsecs hfresh
    refine ⟨st.cur, ?_⟩
    rcases st with ⟨h, s, csec, cur⟩
    dsimp only at hsec hsecs ⊢
    subst hsec hsecs
    simp [List.range']
  | cons p ps ih =>
    intro st nm D idxs T hall hsec hnm hsecs hfresh
    simp only [List.all_cons, Bool.and_eq_true] at hall
    rw [List.flatMap_cons, List.append_assoc,
      parse_patternBlock st nm p _ hall.1 hsec hnm, hsec, hsecs,
      dictAppendIdx_concat D nm idxs st.heap.length hfresh]
    obtain ⟨c, hc⟩ := ih
      ⟨st.heap ++ [expectedPat nm p], D ++ [(nm, idxs ++ [st.heap.length])],
        some nm, some st.heap.length⟩
      nm D (idxs ++ [st.heap.length]) T hall.2 rfl hnm rfl hfresh
    refine ⟨c, ?_⟩
    rw [hc]
    have hlen : (st.heap ++ [expectedPat nm p]).length = st.heap.length + 1 := by simp
    rw [hlen]
    have hr : (idxs ++ [st.heap.length]) ++ List.range' (st.heap.length + 1) ps.length =
        idxs ++ List.range' st.heap.length (ps.length + 1) := by
      rw [List.append_assoc]
      rfl
    rw [hr, List.append_assoc]
    rfl

end RubySnippets
namespace RubySnippets

theorem parse_sectionList : ∀ (S : List HtmlSection) (st : ParseState)
    (T : List (List Char)),
    S.all rtOkSec = true → (∀ s ∈ S, s.section_name ∉ st.secs.map Prod.fst) →
    (S.map HtmlSection.section_name).Nodup →
    ∃ cs c, parseLinesFrom st
        (S.flatMap (fun s => (mdSectionLines s).flatMap splitNl) ++ T) =
      parseLinesFrom ⟨st.heap ++
          S.flatMap (fun s => s.patterns.map (expectedPat s.section_name)),
        st.secs ++ expSecs st.heap.length S, cs, c⟩ T := by
  intro S
  induction S with
  | nil =>
    intro st T _ _ _
    refine ⟨st.curSec, st.cur, ?_⟩
    rcases st with ⟨h, s, csec, cur⟩
    simp [expSecs]
  | cons s S ih =>
    intro st T hall hfresh hnodup
    simp only [List.all_cons, Bool.and_eq_true] at hall
    obtain ⟨hs, hSall⟩ := hall
    simp only [rtOkSec, Bool.and_eq_true, Bool.not_eq_true', decide_eq_true_eq] at hs
    obtain ⟨⟨⟨⟨⟨hnml, hnmstrip⟩, hnmne⟩, hnmtab⟩, hidnl⟩, hpats⟩ := hs
    rw [List.map_cons, List.nodup_cons] at hnodup
    have hsl : (mdSectionLines s).flatMap splitNl =
        ("## ".data ++ s.section_name) :: [] ::
          (s.patterns.flatMap (fun p => (mdPatternLines p).flatMap splitNl)) := by
      rw [show mdSectionLines s =
          ["## ".data ++ s.section_name, []] ++ s.patterns.flatMap mdPatternLines
          from rfl,
        List.flatMap_append,
        show (["## ".data ++ s.section_name, []] : List (List Char)).flatMap splitNl =
          ("## ".data ++ s.section_name) :: [[]] from by
          rw [List.flatMap_cons, List.flatMap_cons, List.flatMap_nil,
            splitNl_nlfree (nlfree_append (by decide) hnml)]
          rfl,
        List.flatMap_assoc]
      rfl
    have hsl2 : ∀ X : List (List Char), (mdSectionLines s).flatMap splitNl ++ X =
        ("## ".data ++ s.section_name) :: [] ::
          (s.patterns.flatMap (fun p => (mdPatternLines p).flatMap splitNl) ++ X) := by
      intro X
      rw [hsl]
      rfl
    rw [List.flatMap_cons, List.append_assoc, hsl2,
      parse_h2_line st s.section_name _ hnmstrip hnmtab
        (hfresh s (List.mem_cons_self _ _)),
      parseLines_blankLine]
    obtain ⟨c1, hc1⟩ := parse_patList s.patterns
      ⟨st.heap, st.secs ++ [(s.section_name, [])], some s.section_name, st.cur⟩
      s.section_name st.secs [] _ hpats rfl hnmne rfl
      (hfresh s (List.mem_cons_self _ _))
    rw [hc1]
    have hfresh2 : ∀ s' ∈ S, s'.section_name ∉
        ((st.secs ++ [(s.section_name,
          ([] : List Nat) ++ List.range' st.heap.length s.patterns.length)]).map
            Prod.fst) := by
      intro s' hs'
      rw [List.map_append, List.mem_append]
      rintro (h | h)
      · exact hfresh s' (List.mem_cons_of_mem s hs') h
      · have h2 := List.mem_singleton.mp h
        rw [show ((s.section_name,
          ([] : List Nat) ++ List.range' st.heap.length s.patterns.length).1) =
            s.section_name from rfl] at h2
        exact hnodup.1 (h2 ▸ List.mem_map_of_mem HtmlSection.section_name hs')
    obtain ⟨cs2, c2, hc2⟩ := ih
      ⟨st.heap ++ s.patterns.map (expectedPat s.section_name),
        st.secs ++ [(s.section_name,
          ([] : List Nat) ++ List.range' st.heap.length s.patterns.length)],
        some s.section_name, c1⟩ T hSall hfresh2 hnodup.2
    refine ⟨cs2, c2, ?_⟩
    rw [hc2]
    have hlen2 : (st.heap ++ s.patterns.map (expectedPat s.section_name)).length =
        st.heap.length + s.patterns.length := by simp
    rw [hlen2]
    have hheap : (st.heap ++ s.patterns.map (expectedPat s.section_name)) ++
        S.flatMap (fun s => s.patterns.map (expectedPat s.section_name)) =
        st.heap ++ (s :: S).flatMap (fun s => s.patterns.map (expectedPat s.section_name)) := by
      rw [List.append_assoc]
      rfl
    have hsecs2 : (st.secs ++ [(s.section_name,
        ([] : List Nat) ++ List.range' st.heap.length s.patterns.length)]) ++
        expSecs (st.heap.length + s.patterns.length) S =
        st.secs ++ expSecs st.heap.length (s :: S) := by
      rw [List.append_assoc]
      rfl
    rw [hheap, hsecs2]

end RubySnippets
namespace RubySnippets

/-- The document prefix `generate_markdown` emits before the first section:
front matter, title block, table of contents and total-count line. -/
def preambleLines (S : List HtmlSection) : List (List Char) :=
  frontmatterLines ++ mdHeaderLines ++ ["## Table of Contents".data, []] ++
    S.map tocLine ++
    [[], "**Total: ".data ++ (Nat.repr (totalPatternCount S)).data ++ " patterns**".data,
      []]

theorem generate_markdown_lines_eq (S : List HtmlSection) :
    generate_markdown_lines S = preambleLines S ++ S.flatMap mdSectionLines := by
  simp [generate_markdown_lines, preambleLines, List.append_assoc]

theorem preambleLines_nlfree (S : List HtmlSection) (hS : S.all rtOkSec = true) :
    ∀ l ∈ preambleLines S, '\n' ∉ l := by
  unfold preambleLines
  refine List.forall_mem_append.mpr ⟨List.forall_mem_append.mpr
    ⟨List.forall_mem_append.mpr ⟨List.forall_mem_append.mpr ⟨?_, ?_⟩, ?_⟩, ?_⟩, ?_⟩
  · intro l hl
    simp only [frontmatterLines, List.mem_cons, List.not_mem_nil, or_false] at hl
    rcases hl with rfl | rfl | rfl | rfl | rfl | rfl | rfl <;> decide
  · intro l hl
    simp only [mdHeaderLines, List.mem_cons, List.not_mem_nil, or_false] at hl
    rcases hl with rfl | rfl | rfl | rfl <;> decide
  · intro l hl
    simp only [List.mem_cons, List.not_mem_nil, or_false] at hl
    rcases hl with rfl | rfl <;> decide
  · intro l hl
    rcases List.mem_map.mp hl with ⟨s, hs, rfl⟩
    have hsec := List.all_eq_true.mp hS s hs
    simp only [rtOkSec, Bool.and_eq_true, Bool.not_eq_true', decide_eq_true_eq] at hsec
    obtain ⟨⟨⟨⟨⟨hnml, _⟩, _⟩, _⟩, hidnl⟩, _⟩ := hsec
    exact nlfree_append (nlfree_append (nlfree_append (nlfree_append (nlfree_append
      (nlfree_append (by decide) hnml) (by decide)) hidnl) (by decide))
      (repr_no_nl _)) (by decide)
  · intro l hl
    simp only [List.mem_cons, List.not_mem_nil, or_false] at hl
    rcases hl with rfl | rfl | rfl
    · decide
    · exact nlfree_append (nlfree_append (by decide) (repr_no_nl _)) (by decide)
    · decide

theorem preambleLines_h2false (S : List HtmlSection) :
    ∀ l ∈ preambleLines S, isH2Open l = false := by
  unfold preambleLines
  refine List.forall_mem_append.mpr ⟨List.forall_mem_append.mpr
    ⟨List.forall_mem_append.mpr ⟨List.forall_mem_append.mpr ⟨?_, ?_⟩, ?_⟩, ?_⟩, ?_⟩
  · intro l hl
    simp only [frontmatterLines, List.mem_cons, List.not_mem_nil, or_false] at hl
    rcases hl with rfl | rfl | rfl | rfl | rfl | rfl | rfl <;> decide
  · intro l hl
    simp only [mdHeaderLines, List.mem_cons, List.not_mem_nil, or_false] at hl
    rcases hl with rfl | rfl | rfl | rfl <;> decide
  · intro l hl
    simp only [List.mem_cons, List.not_mem_nil, or_false] at hl
    rcases hl with rfl | rfl <;> decide
  · intro l hl
    rcases List.mem_map.mp hl with ⟨s, hs, rfl⟩
    exact isH2Open_false_of_not_pref (isPrefixOf_head_ne _ _ (by decide))
  · intro l hl
    simp only [List.mem_cons, List.not_mem_nil, or_false] at hl
    rcases hl with rfl | rfl | rfl
    · decide
    · exact isH2Open_false_of_not_pref (isPrefixOf_head_ne _ _ (by decide))
    · decide

theorem getD_map_range' : ∀ (l : List MdPattern) (H1 H2 : List MdPattern),
    (List.range' H1.length l.length).map
      (fun i => (H1 ++ (l ++ H2)).getD i defaultPat) = l := by
  intro l
  induction l with
  | nil => intro H1 H2; rfl
  | cons p l ihl =>
    intro H1 H2
    rw [show List.range' H1.length (p :: l).length =
      H1.length :: List.range' (H1.length + 1) l.length from rfl, List.map_cons]
    congr 1
    · exact getD_append_cons H1 p (l ++ H2) defaultPat
    · have hlen : H1.length + 1 = (H1 ++ [p]).length := by simp
      have hassoc : H1 ++ (p :: l ++ H2) = (H1 ++ [p]) ++ (l ++ H2) := by simp
      rw [hlen, hassoc]
      exact ihl (H1 ++ [p]) H2

theorem assemble_secs_view : ∀ (S : List HtmlSection) (pre post : List MdPattern),
    (expSecs pre.length S).map (fun e => (e.1, e.2.map (fun i =>
        (pre ++ (S.flatMap (fun s => s.patterns.map (expectedPat s.section_name)) ++ post)).getD
          i defaultPat))) = roundTripView S := by
  intro S
  induction S with
  | nil => intro pre post; rfl
  | cons s S ihS =>
    intro pre post
    rw [show expSecs pre.length (s :: S) =
      (s.section_name, List.range' pre.length s.patterns.length) ::
        expSecs (pre.length + s.patterns.length) S from rfl,
      List.map_cons,
      show roundTripView (s :: S) =
        (s.section_name, s.patterns.map (expectedPat s.section_name)) ::
          roundTripView S from rfl]
    have hassoc : (s :: S).flatMap (fun s => s.patterns.map (expectedPat s.section_name))
        ++ post = s.patterns.map (expectedPat s.section_name) ++
        (S.flatMap (fun s => s.patterns.map (expectedPat s.section_name)) ++ post) := by
      rw [List.flatMap_cons, List.append_assoc]
    congr 1
    · rw [hassoc,
        show s.patterns.length = (s.patterns.map (expectedPat s.section_name)).length
          from (List.length_map _ _).symm,
        getD_map_range' (s.patterns.map (expectedPat s.section_name)) pre _]
    · have h1 : pre.length + s.patterns.length =
          (pre ++ s.patterns.map (expectedPat s.section_name)).length := by simp
      have h2 : pre ++ ((s :: S).flatMap
            (fun s => s.patterns.map (expectedPat s.section_name)) ++ post) =
          (pre ++ s.patterns.map (expectedPat s.section_name)) ++
            (S.flatMap (fun s => s.patterns.map (expectedPat s.section_name)) ++ post) := by
        rw [List.flatMap_cons]
        simp [List.append_assoc]
      rw [h1, h2]
      exact ihS (pre ++ s.patterns.map (expectedPat s.section_name)) post

end RubySnippets
namespace RubySnippets

/-- A section whose pattern's description starts with `**`: the parser's
description branch refuses it, so the round trip loses it. -/
def cexSections : List HtmlSection :=
  [{ section_id := "models".data, section_name := "Models".data,
     patterns := [{ title := "Soft Delete".data,
                    description := some "**bold** description".data,
                    docs := none, source := none, code := none }] }]

set_option maxRecDepth 100000 in
/-- C1 (counterexample): the round trip does not hold for every Section
sequence — a description beginning with `**` is dropped by the parser
(`md_to_html.py` line 139), so `Parse(Render(S))` does not reproduce S's
description field. -/
theorem markdown_roundtrip_fails_on_bold_description :
    parse_patterns (generate_markdown cexSections) ≠ roundTripView cexSections := by
  decide

/-- C1 (amended): for well-formed Section sequences — pairwise-distinct,
stripped, non-empty section names not beginning with `Table`, newline-free
names and ids, stripped newline-free titles, descriptions that are non-empty,
stripped, newline-free and do not start with `**`, ```` ``` ````, `## ` or
`### `, link labels without `]`, link URLs without `)`, both non-empty and
newline-free, and code whose lines never open a fence — parsing the Markdown
produced by the renderer reconstructs every section and every pattern's
title, description, docs link, source link (links in the parser's anchor
representation) and the HTML-escaping of the code. -/
theorem markdown_roundtrip_correct (S : List HtmlSection)
    (h : rtOkSections S = true) :
    parse_patterns (generate_markdown S) = roundTripView S := by
  simp only [rtOkSections, Bool.and_eq_true, decide_eq_true_eq] at h
  obtain ⟨hall, hnodup⟩ := h
  unfold parse_patterns generate_markdown
  have hne : generate_markdown_lines S ≠ [] := by
    rw [generate_markdown_lines_eq]
    simp [preambleLines, frontmatterLines]
  rw [splitNl_joinNl _ hne, generate_markdown_lines_eq, List.flatMap_append,
    flatMap_splitNl_of_nlfree (preambleLines_nlfree S hall)]
  unfold parsePatternsLines
  rw [parseLines_inert _ _ (preambleLines_h2false S), List.flatMap_assoc,
    show S.flatMap (fun s => (mdSectionLines s).flatMap splitNl) =
      S.flatMap (fun s => (mdSectionLines s).flatMap splitNl) ++ [] from
      (List.append_nil _).symm]
  obtain ⟨cs, c, hc⟩ := parse_sectionList S initState [] hall (by simp [initState])
    hnodup
  rw [hc, parseLines_nil]
  simpa [assemble, initState] using assemble_secs_view S [] []

/-- A fully featured well-formed input for the round-trip theorem: one
section with one pattern carrying a description, docs link, source link and
a two-line code block with an HTML-escapable character. -/
def witSections : List HtmlSection :=
  [{ section_id := "models".data, section_name := "Models".data,
     patterns := [{ title := "Soft Delete".data,
                    description := some "Marks records as deleted".data,
                    docs := some ("https://api.rubyonrails.org/scoping".data,
                      "Active Record Scopes".data),
                    source := some ("https://github.com/basecamp/once-campfire".data,
                      "app/models/user.rb".data),
                    code := some "scope :active, -> do\n  where deleted_at: nil & x < 3\nend".data }] }]

set_option maxRecDepth 100000 in
/-- Closed witness for `markdown_roundtrip_correct` at `witSections`. -/
theorem markdown_roundtrip_correct_witness :
    rtOkSections witSections = true ∧
      parse_patterns (generate_markdown witSections) = roundTripView witSections :=
  ⟨by decide, markdown_roundtrip_correct witSections (by decide)⟩

end RubySnippets

namespace RubySnippets

/-- C5 (amended): the Markdown renderer emits exactly the title line plus the
lines of each present optional field — every absent optional field contributes
no lines at all, and a pattern with no optional fields renders as just its H3
title line.  A pattern lacking a docs-link renders Markdown with no docs-link
line at all (provided its description and code do not themselves start with
the docs label), while a docs-link present always produces such a line.  The
HTML renderer likewise emits no docs-link line when `rails_docs` is empty, no
source-link line when `source` is empty and no code block when `code` is empty
(for newline-free fields); the HTML description placeholder `<p></p>`,
however, is always emitted (see the counterexample). -/
theorem renderers_omit_missing_docs :
    (∀ p : HtmlPattern, p.description = none → p.docs = none → p.source = none →
      p.code = none → mdPatternLines p = ["### ".data ++ p.title, []]) ∧
    (∀ p : HtmlPattern, p.docs = none →
      (∀ d, p.description = some d → mdDocsMarker.isPrefixOf d = false) →
      (∀ c, p.code = some c → mdDocsMarker.isPrefixOf c = false) →
      ∀ l ∈ mdPatternLines p, mdDocsMarker.isPrefixOf l = false) ∧
    (∀ p : HtmlPattern, ∀ du, p.docs = some du →
      ∃ l ∈ mdPatternLines p, mdDocsMarker.isPrefixOf l = true) ∧
    (∀ q : MdPattern, q.rails_docs = [] →
      '\n' ∉ q.name → '\n' ∉ q.description → '\n' ∉ q.source → '\n' ∉ q.code →
      '\n' ∉ q.category →
      ∀ l ∈ splitNl (htmlPatternFragment q), htmlDocsMarker.isPrefixOf l = false) ∧
    (∀ p : HtmlPattern, mdPatternLines p =
        ["### ".data ++ p.title, []] ++ descSeg p.description ++ docsSeg p.docs ++
          srcSeg p.source ++ codeSeg p.code ∧
      descSeg none = [] ∧ docsSeg none = [] ∧ srcSeg none = [] ∧ codeSeg none = []) ∧
    (∀ q : MdPattern, q.source = [] →
      '\n' ∉ q.name → '\n' ∉ q.description → '\n' ∉ q.rails_docs → '\n' ∉ q.code →
      '\n' ∉ q.category →
      ∀ l ∈ splitNl (htmlPatternFragment q), htmlSourceMarker.isPrefixOf l = false) ∧
    (∀ q : MdPattern, q.code = [] →
      '\n' ∉ q.name → '\n' ∉ q.description → '\n' ∉ q.rails_docs → '\n' ∉ q.source →
      '\n' ∉ q.category →
      ∀ l ∈ splitNl (htmlPatternFragment q), htmlCodeMarker.isPrefixOf l = false) := by
  refine ⟨fun p h1 h2 h3 h4 => ?_, fun p hdocs hdesc hcode l hl => ?_,
    fun p du hdu => ?_, fun q hdocs h1 h2 h3 h4 h5 l hl => ?_,
    fun p => ⟨mdPatternLines_eq p, rfl, rfl, rfl, rfl⟩,
    fun q hsrc h1 h2 h3 h4 h5 l hl => ?_, fun q hcode h1 h2 h3 h4 h5 l hl => ?_⟩
  · simp [mdPatternLines, h1, h2, h3, h4]
  · rcases mem_mdPatternLines hl with h | h | ⟨d, hd, h⟩ | ⟨du, hdu, h⟩ | ⟨su, hsu, h⟩
      | h | ⟨c, hcc, h⟩ | h
    · subst h; rfl
    · subst h; rfl
    · subst h; exact hdesc _ hd
    · rw [hdocs] at hdu; exact absurd hdu (by simp)
    · subst h; rfl
    · subst h; rfl
    · subst h; exact hcode _ hcc
    · subst h; rfl
  · refine ⟨"**Rails Docs:** [".data ++ du.2 ++ "](".data ++ du.1 ++ ")".data, ?_, rfl⟩
    simp [mdPatternLines, hdu]
  · rw [splitNl_htmlPatternFragment q hdocs h1 h2 h3 h4 h5] at hl
    have hl2 : l = htmlLine1 q ∨ l = htmlLine2 q ∨ l = htmlLine3 q ∨
        l = htmlSourceLine q ∨ l = htmlCodeLine q ∨ l = "</div>".data ∨ l = [] := by
      by_cases hs : q.source = [] <;> by_cases hc : q.code = [] <;>
        simp [hs, hc] at hl <;> tauto
    rcases hl2 with rfl | rfl | rfl | rfl | rfl | rfl | rfl <;> rfl
  · have hl2 := mem_splitNl_htmlPatternFragment h1 h2 h3
      (by rw [hsrc]; decide) h4 h5 hl
    rcases hl2 with rfl | rfl | rfl | ⟨hne, rfl⟩ | ⟨hne, rfl⟩ | ⟨hne, rfl⟩ | rfl | rfl
    · rfl
    · rfl
    · rfl
    · rfl
    · exact absurd hsrc hne
    · rfl
    · rfl
    · rfl
  · have hl2 := mem_splitNl_htmlPatternFragment h1 h2 h3 h4
      (by rw [hcode]; decide) h5 hl
    rcases hl2 with rfl | rfl | rfl | ⟨hne, rfl⟩ | ⟨hne, rfl⟩ | ⟨hne, rfl⟩ | rfl | rfl
    · rfl
    · rfl
    · rfl
    · rfl
    · rfl
    · exact absurd hcode hne
    · rfl
    · rfl

/-- Closed witness for `renderers_omit_missing_docs` at concrete patterns:
the docs-omission conjuncts at a docs-less pattern (Markdown and HTML) and
the source-omission conjunct at a source-less pattern that still carries a
docs link and code. -/
theorem renderers_omit_missing_docs_witness :
    (∀ l ∈ mdPatternLines
      { title := "Soft Delete".data, description := some "Marks records".data,
        docs := none, source := none, code := some "x = 1".data },
      mdDocsMarker.isPrefixOf l = false) ∧
    (∀ l ∈ splitNl (htmlPatternFragment
      { name := "Soft Delete".data, description := "Marks records".data,
        rails_docs := [], source := [], code := "x = 1".data,
        category := "models".data }),
      htmlDocsMarker.isPrefixOf l = false) ∧
    (∀ l ∈ splitNl (htmlPatternFragment
      { name := "Soft Delete".data, description := "Marks records".data,
        rails_docs := "<a href=\"u\" target=\"_blank\">d</a>".data, source := [],
        code := "x = 1".data, category := "models".data }),
      htmlSourceMarker.isPrefixOf l = false) := by
  refine ⟨?_, ?_, ?_⟩
  · refine renderers_omit_missing_docs.2.1 _ rfl ?_ ?_
    · intro d hd
      obtain rfl := Option.some.inj hd
      rfl
    · intro c hc
      obtain rfl := Option.some.inj hc
      rfl
  · exact renderers_omit_missing_docs.2.2.2.1 _ rfl (by decide) (by decide)
      (by decide) (by decide) (by decide)
  · exact renderers_omit_missing_docs.2.2.2.2.2.1 _ rfl (by decide) (by decide)
      (by decide) (by decide) (by decide)

end RubySnippets
